import Mathlib

/-!
Verification development for the `paas` scheduling engine.

Shallow embedding conventions, used throughout:

* Python `dict[int, V]` values are embedded as association lists
  `List (Nat × V)`.  Python dictionaries preserve insertion order and have
  unique keys; the key-uniqueness invariant is carried explicitly as a
  `Nodup` hypothesis in theorems whose truth depends on it.  Lookup is
  first-match (`List.lookup`), which agrees with Python lookup under that
  invariant.
* Python `int` is embedded as `Int` for quantities that can be negative or
  are compared/added with times (durations, costs, times); identifiers
  (task ids, team ids) are embedded as `Nat`.
* Python exceptions are embedded with `Except PyError`; code that cannot
  raise is embedded as a total function.
* Python's stable `sorted` / `list.sort` is embedded with
  `List.insertionSort`, which computes the same list as any stable sort by
  the same key.
-/

namespace Paas

/-- Embedded Python exceptions (only the kinds the embedded code can raise). -/
inductive PyError where
  | typeError (msg : String) : PyError
  | valueError (msg : String) : PyError
  | indexError : PyError
deriving DecidableEq, Repr

/-! ## Data model (src/paas/models.py) -/

/-- `Task` dataclass (models.py lines 5-12).  `compatible_teams` is the
map of compatible team id to cost, embedded as an association list. -/
structure Task where
  id : Nat
  duration : Int
  predecessors : List Nat := []
  successors : List Nat := []
  compatible_teams : List (Nat × Int) := []
deriving DecidableEq, Repr

/-- `Team` dataclass (models.py lines 15-18). -/
structure Team where
  id : Nat
  available_from : Int
deriving DecidableEq, Repr

/-- `ProblemInstance` dataclass (models.py lines 21-26). -/
structure ProblemInstance where
  num_tasks : Nat
  num_teams : Nat
  tasks : List (Nat × Task)
  teams : List (Nat × Team)
deriving DecidableEq, Repr

/-- `Assignment` dataclass (models.py lines 44-48). -/
structure Assignment where
  task_id : Nat
  team_id : Nat
  start_time : Int
deriving DecidableEq, Repr

/-- `Schedule` dataclass (models.py lines 51-53). -/
structure Schedule where
  assignments : List Assignment
deriving DecidableEq, Repr

/-! ## Dictionary helpers for the association-list embedding -/

/-- Keys of an embedded dict, in insertion order. -/
def dictKeys {α : Type} (d : List (Nat × α)) : List Nat := d.map Prod.fst

/-- First-match lookup (agrees with Python dict lookup when keys are unique). -/
def dictLookup {α : Type} (d : List (Nat × α)) (k : Nat) : Option α :=
  List.lookup k d

/-- Python `k in d`. -/
def dictContains {α : Type} (d : List (Nat × α)) (k : Nat) : Bool :=
  (dictLookup d k).isSome

/-- The invariant every value of Python type `dict` satisfies: unique keys. -/
def dictWF {α : Type} (d : List (Nat × α)) : Prop := (dictKeys d).Nodup

instance {α : Type} (d : List (Nat × α)) : Decidable (dictWF d) := by
  unfold dictWF; infer_instance

/-- Boolean test for `set(l) == set(range(n))`. -/
def setEqRange (l : List Nat) (n : Nat) : Bool :=
  l.all (fun i => decide (i < n)) && (List.range n).all (fun i => l.contains i)

/-- `ProblemInstance.assert_continuous_indices` (models.py lines 28-41):
raises `ValueError` unless task ids are exactly `set(range(num_tasks))` and
team ids exactly `set(range(num_teams))`. -/
def ProblemInstance.assert_continuous_indices (p : ProblemInstance) : Except PyError Unit :=
  if ¬ setEqRange (dictKeys p.tasks) p.num_tasks then
    .error (.valueError "Task IDs are not continuous")
  else if ¬ setEqRange (dictKeys p.teams) p.num_teams then
    .error (.valueError "Team IDs are not continuous")
  else
    .ok ()

/-- Propositional form of the continuous-index invariant. -/
def continuousOk (p : ProblemInstance) : Prop :=
  setEqRange (dictKeys p.tasks) p.num_tasks = true ∧
    setEqRange (dictKeys p.teams) p.num_teams = true

instance (p : ProblemInstance) : Decidable (continuousOk p) := by
  unfold continuousOk; infer_instance

/-! ## Schedule validator (src/paas/checker.py) -/

/-- Structured embedding of checker.py's `ValidationError`: each constructor
corresponds to one of the formatted messages, carrying the data interpolated
into it. -/
inductive VError where
  | taskNotExist (a : Assignment)
  | teamNotExist (a : Assignment)
  | taskDuplicated (a : Assignment)
  | teamNotCompatible (a : Assignment)
  | beforeTeamAvailable (a : Assignment)
  | precedenceViolation (task_id pred_id : Nat) (a : Assignment)
  | teamOverlap (team_id : Nat) (a : Assignment)
deriving DecidableEq, Repr

/-- `ValidationResult` dataclass (checker.py lines 12-15). -/
structure ValidationResult where
  is_valid : Bool
  errors : List VError
deriving DecidableEq, Repr

/-- State threaded through the per-assignment loop of `validate_schedule`. -/
structure CheckState where
  errors : List VError
  scheduled_tasks : List (Nat × Assignment)
  team_schedules : List (Nat × List Assignment)
deriving Repr

/-- `team_schedules[team_id].append(assignment)`, creating the entry first
when absent (checker.py lines 72-74). -/
def appendTeamSchedule (d : List (Nat × List Assignment)) (k : Nat) (a : Assignment) :
    List (Nat × List Assignment) :=
  if dictContains d k then
    d.map (fun kv => if kv.1 = k then (kv.1, kv.2 ++ [a]) else kv)
  else
    d ++ [(k, [a])]

/-- Body of the first loop of `validate_schedule` (checker.py lines 25-74),
processing one assignment. -/
def checkAssignment (p : ProblemInstance) (st : CheckState) (a : Assignment) : CheckState :=
  match dictLookup p.tasks a.task_id with
  | none => { st with errors := st.errors ++ [.taskNotExist a] }
  | some task =>
    match dictLookup p.teams a.team_id with
    | none => { st with errors := st.errors ++ [.teamNotExist a] }
    | some team =>
      let (errors, scheduled_tasks) :=
        if dictContains st.scheduled_tasks a.task_id then
          (st.errors ++ [.taskDuplicated a], st.scheduled_tasks)
        else
          (st.errors, st.scheduled_tasks ++ [(a.task_id, a)])
      let errors :=
        if dictContains task.compatible_teams a.team_id then errors
        else errors ++ [.teamNotCompatible a]
      let errors :=
        if a.start_time < team.available_from then errors ++ [.beforeTeamAvailable a]
        else errors
      { errors := errors,
        scheduled_tasks := scheduled_tasks,
        team_schedules := appendTeamSchedule st.team_schedules a.team_id a }

/-- Precedence-check loop of `validate_schedule` (checker.py lines 77-93). -/
def precedenceErrors (p : ProblemInstance) (scheduled_tasks : List (Nat × Assignment)) :
    List VError :=
  scheduled_tasks.foldl
    (fun errs ta =>
      match dictLookup p.tasks ta.1 with
      | none => errs  -- unreachable: every scheduled task id was looked up successfully
      | some task =>
        task.predecessors.foldl
          (fun errs pred_id =>
            match dictLookup scheduled_tasks pred_id with
            | none => errs
            | some pa =>
              match dictLookup p.tasks pred_id with
              | none => errs  -- unreachable, as above
              | some pred_task =>
                if ta.2.start_time < pa.start_time + pred_task.duration then
                  errs ++ [.precedenceViolation ta.1 pred_id ta.2]
                else errs)
          errs)
    []

/-- Adjacent-pair overlap scan over a start-time-sorted list
(checker.py lines 99-111). -/
def overlapScan (p : ProblemInstance) (team_id : Nat) : List Assignment → List VError
  | [] => []
  | [_] => []
  | curr :: next_a :: rest =>
    let tail := overlapScan p team_id (next_a :: rest)
    match dictLookup p.tasks curr.task_id with
    | none => tail  -- unreachable: only existing tasks reach team_schedules
    | some curr_task =>
      if curr.start_time + curr_task.duration > next_a.start_time then
        .teamOverlap team_id next_a :: tail
      else tail

/-- Team-overlap loop of `validate_schedule` (checker.py lines 96-111):
per team, sort that team's assignments by start time (stably) and scan
adjacent pairs. -/
def overlapErrors (p : ProblemInstance) (team_schedules : List (Nat × List Assignment)) :
    List VError :=
  team_schedules.foldl
    (fun errs ts =>
      let sorted_assignments :=
        ts.2.insertionSort (fun x y => x.start_time ≤ y.start_time)
      errs ++ overlapScan p ts.1 sorted_assignments)
    []

/-- `validate_schedule` (checker.py lines 18-113). -/
def validate_schedule (prob : ProblemInstance) (schedule : Schedule) : ValidationResult :=
  let st := schedule.assignments.foldl (checkAssignment prob)
    { errors := [], scheduled_tasks := [], team_schedules := [] }
  let errors := st.errors ++ precedenceErrors prob st.scheduled_tasks
      ++ overlapErrors prob st.team_schedules
  { is_valid := errors.isEmpty, errors := errors }

/-! ## Pipeline time-budget allocation (src/paas/middleware/base.py lines 162-198)

The code computes each stage's sub-budget with Python floats; the claims
about it are exact arithmetic identities, so the arithmetic is embedded
over `ℚ`. -/

/-- The sub-budgets `Pipeline.run` assigns, in stage order (middlewares
first, the terminal solver last): with `total_factor` the sum of all
`time_factor`s including the solver's, each stage receives
`(factor / total_factor) * total_seconds` when `total_factor > 0`, else 0
(base.py lines 180-198). -/
def pipelineBudgets (middleware_factors : List ℚ) (solver_factor : ℚ)
    (total_seconds : ℚ) : List ℚ :=
  let total_factor := middleware_factors.sum + solver_factor
  middleware_factors.map
      (fun f => if total_factor > 0 then f / total_factor * total_seconds else 0)
    ++ [if total_factor > 0 then solver_factor / total_factor * total_seconds else 0]

/-! ## Middleware base calling convention (src/paas/middleware/base.py)

`MapProblem.run` (base.py lines 61-68) invokes
`self.map_problem(problem, time_limit=time_limit)`.  Whether that call
succeeds depends on the *signature* of the subclass override: an override
declared without a `time_limit` parameter makes the call raise `TypeError`.
The embedding records that signature fact in `accepts_time_limit`. -/

structure MapProblemImpl where
  accepts_time_limit : Bool
  map_problem : ProblemInstance → ProblemInstance

/-- The call `self.map_problem(problem, time_limit=time_limit)` performed by
`MapProblem.run`: a `TypeError` when the override's signature has no
`time_limit` parameter, the transformed problem otherwise. -/
def MapProblem.callMapProblem (impl : MapProblemImpl) (problem : ProblemInstance) :
    Except PyError ProblemInstance :=
  if impl.accepts_time_limit then .ok (impl.map_problem problem)
  else .error (.typeError "map_problem got an unexpected keyword argument time_limit")

/-- `MapProblem.run` (base.py lines 61-68): transform the problem, then hand
it to the next runnable. -/
def MapProblem.run (impl : MapProblemImpl) (next_run : ProblemInstance → Schedule)
    (problem : ProblemInstance) : Except PyError Schedule :=
  (MapProblem.callMapProblem impl problem).map next_run

/-! ## ImpossibleTaskRemover (src/paas/middleware/impossible_task_remover.py) -/

/-- `ImpossibleTaskRemover.map_problem` (lines 13-53): drop every task with
an empty `compatible_teams`, and strip the dropped ids from every kept
task's adjacency lists.  (The `print` to stderr is a side effect with no
bearing on the result and is not modelled.) -/
def ImpossibleTaskRemover.map_problem (problem : ProblemInstance) : ProblemInstance :=
  let tasks := problem.tasks
  let to_remove := tasks.filterMap
    (fun kv => if kv.2.compatible_teams.isEmpty then some kv.1 else none)
  let new_tasks := tasks.filterMap (fun kv =>
    if to_remove.contains kv.1 then none
    else some (kv.1, { kv.2 with
      predecessors := kv.2.predecessors.filter (fun q => ¬ to_remove.contains q),
      successors := kv.2.successors.filter (fun s => ¬ to_remove.contains s) }))
  { num_tasks := new_tasks.length, num_teams := problem.num_teams,
    tasks := new_tasks, teams := problem.teams }

/-! ## CycleRemover (src/paas/middleware/cycle_remover.py) -/

/-- Overwriting dict update: with first-match lookup, prepending implements
Python's `d[k] = v`. -/
def dictInsert {α : Type} (d : List (Nat × α)) (k : Nat) (v : α) : List (Nat × α) :=
  (k, v) :: d

/-- State of Tarjan's algorithm (`CycleRemover._find_sccs`, lines 75-125).
The Python code appends to / pops from the end of `stack`; the embedding
keeps the top of the stack at the head. -/
structure TarjanState where
  visited : List Nat
  stack : List Nat
  on_stack : List Nat
  ids : List (Nat × Nat)
  low : List (Nat × Nat)
  sccs : List (List Nat)
  counter : Nat
deriving Repr

/-- The `while stack:` pop loop at the root of an SCC
(cycle_remover.py lines 112-118): pop until the popped node is `at_`.
Returns the remaining stack and the collected SCC (in pop order). -/
def popScc (at_ : Nat) : List Nat → List Nat → List Nat × List Nat
  | [], scc => ([], scc)
  | node :: stack, scc =>
    if node = at_ then (stack, scc ++ [node])
    else popScc at_ stack (scc ++ [node])

/-- `dfs` of `CycleRemover._find_sccs` (lines 92-119).  The recursion is
bounded by `fuel`; each nested call is made on a not-yet-visited node that
the callee immediately marks visited, so a fuel of `tasks.length + 1`
(supplied by `find_sccs`) can never run out. -/
def tarjanDFS (tasks : List (Nat × Task)) : Nat → Nat → TarjanState → TarjanState
  | 0, _, st => st
  | fuel + 1, at_, st₀ =>
    let st₁ := { st₀ with
      stack := at_ :: st₀.stack,
      on_stack := at_ :: st₀.on_stack,
      visited := at_ :: st₀.visited,
      ids := dictInsert st₀.ids at_ st₀.counter,
      low := dictInsert st₀.low at_ st₀.counter,
      counter := st₀.counter + 1 }
    let succs := match dictLookup tasks at_ with
      | some t => t.successors
      | none => []  -- unreachable: dfs is only invoked on keys of `tasks`
    let st₂ := succs.foldl
      (fun st to_ =>
        if ¬ dictContains tasks to_ then st
        else if ¬ st.visited.contains to_ then
          let st' := tarjanDFS tasks fuel to_ st
          let m := min ((dictLookup st'.low at_).getD 0) ((dictLookup st'.low to_).getD 0)
          { st' with low := dictInsert st'.low at_ m }
        else if st.on_stack.contains to_ then
          let m := min ((dictLookup st.low at_).getD 0) ((dictLookup st.ids to_).getD 0)
          { st with low := dictInsert st.low at_ m }
        else st)
      st₁
    if dictLookup st₂.ids at_ = dictLookup st₂.low at_ then
      let (stack', scc) := popScc at_ st₂.stack []
      { st₂ with
          stack := stack',
          on_stack := scc.foldl (fun os n => os.erase n) st₂.on_stack,
          sccs := st₂.sccs ++ [scc] }
    else st₂

/-- `CycleRemover._find_sccs` (lines 75-125): run the DFS from every
not-yet-visited task id, in dict order. -/
def CycleRemover.find_sccs (tasks : List (Nat × Task)) : List (List Nat) :=
  let st := (dictKeys tasks).foldl
    (fun st task_id =>
      if st.visited.contains task_id then st
      else tarjanDFS tasks (tasks.length + 1) task_id st)
    ⟨[], [], [], [], [], [], 0⟩
  st.sccs

/-- `node in tasks[node].successors` (self-loop check, lines 26-28). -/
def selfLoop (tasks : List (Nat × Task)) (node : Nat) : Bool :=
  match dictLookup tasks node with
  | some t => t.successors.contains node
  | none => false

/-- The `cycle_tasks` set (cycle_remover.py lines 20-28): members of an SCC
of size > 1, plus singleton SCCs with a self-loop. -/
def cycleTasksOf (tasks : List (Nat × Task)) : List Nat :=
  (CycleRemover.find_sccs tasks).foldl
    (fun acc scc =>
      if 1 < scc.length then acc ++ scc
      else
        match scc with
        | [node] => if selfLoop tasks node then acc ++ [node] else acc
        | _ => acc)
    []

/-- `CycleRemover._propagate_removal` (lines 127-147): BFS forward along
`successors` from the bad set.  The queue pops from the front; the fuel
bounds the number of pops and can never run out at the fuel supplied by
`map_problem` (each id is enqueued at most once per occurrence in a
successor list, plus the initial queue). -/
def CycleRemover.propagate_removal (tasks : List (Nat × Task)) :
    Nat → List Nat → List Nat → List Nat
  | 0, to_remove, _ => to_remove
  | _ + 1, to_remove, [] => to_remove
  | fuel + 1, to_remove, current :: queue =>
    if ¬ dictContains tasks current then
      CycleRemover.propagate_removal tasks fuel to_remove queue
    else
      let succs := match dictLookup tasks current with
        | some t => t.successors
        | none => []
      let step := succs.foldl
        (fun (acc : List Nat × List Nat) succ =>
          if acc.1.contains succ then acc else (acc.1 ++ [succ], acc.2 ++ [succ]))
        (to_remove, queue)
      CycleRemover.propagate_removal tasks fuel step.1 step.2

/-- Fuel that dominates the number of BFS pops. -/
def propagateFuel (tasks : List (Nat × Task)) (bad : List Nat) : Nat :=
  bad.length + (tasks.map (fun kv => kv.2.successors.length)).sum + 1

/-- `CycleRemover.map_problem` (cycle_remover.py lines 14-73): remove the
tasks in cycles and everything reachable from them along `successors`, and
filter the removed ids out of the kept tasks' adjacency lists.  (The
`print` side effect is not modelled.) -/
def CycleRemover.map_problem (problem : ProblemInstance) : ProblemInstance :=
  let tasks := problem.tasks
  let cycle_tasks := cycleTasksOf tasks
  if cycle_tasks.isEmpty then problem
  else
    let tasks_to_remove :=
      CycleRemover.propagate_removal tasks (propagateFuel tasks cycle_tasks)
        cycle_tasks cycle_tasks
    let new_tasks := tasks.filterMap (fun kv =>
      if tasks_to_remove.contains kv.1 then none
      else some (kv.1, { kv.2 with
        predecessors := kv.2.predecessors.filter (fun q => ¬ tasks_to_remove.contains q),
        successors := kv.2.successors.filter (fun s => ¬ tasks_to_remove.contains s) }))
    { num_tasks := new_tasks.length, num_teams := problem.num_teams,
      tasks := new_tasks, teams := problem.teams }

/-! ## DependencyPruner (src/paas/middleware/dependency_pruner.py) -/

/-- The BFS of `DependencyPruner.map_problem` (lines 30-57): like the
cycle remover's, but a successor is only enqueued when it is still in
`tasks`. -/
def DependencyPruner.propagate (tasks : List (Nat × Task)) :
    Nat → List Nat → List Nat → List Nat
  | 0, to_remove, _ => to_remove
  | _ + 1, to_remove, [] => to_remove
  | fuel + 1, to_remove, current :: queue =>
    match dictLookup tasks current with
    | none => DependencyPruner.propagate tasks fuel to_remove queue
    | some current_task =>
      let step := current_task.successors.foldl
        (fun (acc : List Nat × List Nat) succ_id =>
          if ¬ acc.1.contains succ_id ∧ dictContains tasks succ_id then
            (acc.1 ++ [succ_id], acc.2 ++ [succ_id])
          else acc)
        (to_remove, queue)
      DependencyPruner.propagate tasks fuel step.1 step.2

/-- Step 3 of `DependencyPruner.map_problem` (lines 59-84): drop the removed
tasks and filter the survivors' adjacency lists to
`final_valid_ids = valid_ids - to_remove`. -/
def DependencyPruner.rebuild (tasks : List (Nat × Task)) (to_remove : List Nat) :
    List (Nat × Task) :=
  let valid_ids := dictKeys tasks
  let finalValid : Nat → Bool := fun s => valid_ids.contains s && ¬ to_remove.contains s
  tasks.filterMap (fun kv =>
    if to_remove.contains kv.1 then none
    else some (kv.1, { kv.2 with
      predecessors := kv.2.predecessors.filter (fun q => finalValid q),
      successors := kv.2.successors.filter (fun s => finalValid s) }))

/-- `DependencyPruner.map_problem` (dependency_pruner.py lines 11-96):
remove every task with a predecessor outside the task set, propagate the
removal forward along `successors`, and rebuild the survivors with their
adjacency lists filtered to the surviving ids.  (The `print` side effect is
not modelled.) -/
def DependencyPruner.map_problem (problem : ProblemInstance) : ProblemInstance :=
  let tasks := problem.tasks
  let valid_ids := dictKeys tasks
  let broken := tasks.filterMap
    (fun kv =>
      if kv.2.predecessors.any (fun q => ¬ valid_ids.contains q) then some kv.1 else none)
  let to_remove := DependencyPruner.propagate tasks (propagateFuel tasks broken) broken broken
  let new_tasks := DependencyPruner.rebuild tasks to_remove
  { num_tasks := new_tasks.length, num_teams := problem.num_teams,
    tasks := new_tasks, teams := problem.teams }

/-! The signature facts used by `MapProblem.run` (see the claims about the
middleware `run` interface): `ImpossibleTaskRemover.map_problem` declares a
`time_limit` keyword parameter (impossible_task_remover.py lines 13-15);
`CycleRemover.map_problem` (cycle_remover.py line 14) and
`DependencyPruner.map_problem` (dependency_pruner.py line 11) do not. -/

def impossibleTaskRemoverImpl : MapProblemImpl :=
  { accepts_time_limit := true, map_problem := ImpossibleTaskRemover.map_problem }

def cycleRemoverImpl : MapProblemImpl :=
  { accepts_time_limit := false, map_problem := CycleRemover.map_problem }

def dependencyPrunerImpl : MapProblemImpl :=
  { accepts_time_limit := false, map_problem := DependencyPruner.map_problem }

/-! ## ContinuousIndexer (src/paas/middleware/continuous_indexer.py) -/

/-- Python's `sorted` over ids (`ContinuousIndexMap.__init__`, line 12). -/
def sortedIds (indices : List Nat) : List Nat := indices.insertionSort (· ≤ ·)

/-- `ContinuousIndexMap.to_continuous` (lines 8-17): `old_to_new` is filled
by `for new_id, old_id in enumerate(sorted(indices))`, a later pair
overwriting an earlier one; the fold reproduces that last-write-wins
semantics.  Python raises KeyError for an id absent from the map; every
call site guards with `in` (`indexMem`), so the `getD 0` default is
unreachable. -/
def to_continuous (indices : List Nat) (old_id : Nat) : Nat :=
  ((sortedIds indices).enum.foldl
    (fun acc p => if p.2 = old_id then some p.1 else acc) none).getD 0

/-- `old_id in self.old_to_new` (`ContinuousIndexMap.__contains__`,
lines 22-23): the keys of `old_to_new` are exactly the given indices. -/
def indexMem (indices : List Nat) (old_id : Nat) : Bool := indices.contains old_id

/-- `ContinuousIndexMap.from_continuous` (lines 19-20): `new_to_old[new_id]`
is the id at position `new_id` of the sorted index list. -/
def from_continuous (indices : List Nat) (new_id : Nat) : Nat :=
  (sortedIds indices).getD new_id 0

/-- The relabeled `new_problem` that `ContinuousIndexer.run` builds and
passes to the wrapped next stage (continuous_indexer.py lines 40-78):
task ids are remapped through the task-id map (built from `tasks.keys()`),
team ids through the team-id map (built from the teams' `id` fields);
adjacency lists and `compatible_teams` are filtered to ids present in the
respective maps before remapping.  `num_tasks` is recomputed as
`len(new_tasks)`, while `num_teams` is copied from the input unchanged
(line 75). -/
def ContinuousIndexer.relabel (problem : ProblemInstance) : ProblemInstance :=
  let task_ids := dictKeys problem.tasks
  let team_ids := problem.teams.map (fun kv => kv.2.id)
  let new_tasks := problem.tasks.map (fun kv =>
    let new_id := to_continuous task_ids kv.1
    (new_id,
      { id := new_id
        duration := kv.2.duration
        predecessors :=
          (kv.2.predecessors.filter (fun q => indexMem task_ids q)).map (to_continuous task_ids)
        successors :=
          (kv.2.successors.filter (fun s => indexMem task_ids s)).map (to_continuous task_ids)
        compatible_teams :=
          (kv.2.compatible_teams.filter (fun tc => indexMem team_ids tc.1)).map
            (fun tc => (to_continuous team_ids tc.1, tc.2)) }))
  { num_tasks := new_tasks.length
    num_teams := problem.num_teams
    tasks := new_tasks
    teams := problem.teams.map (fun kv => (to_continuous team_ids kv.2.id, kv.2)) }

/-! ## TabuSearchMiddleware (src/paas/middleware/tabu_search.py)

The middleware's stochastic choices (`random.sample`, `random.shuffle`,
`random.choice`) are parameterised by a `TabuOracle`; its wall-clock budget
checks (`budget.is_expired()`) are parameterised by a Boolean stream
`expired : Nat → Bool` indexed by the number of checks performed so far. -/

/-- `Solution` dataclass (tabu_search.py lines 11-15). -/
structure Solution where
  task_order : List Nat
  team_assignment : List Nat
  fitness : Option (Int × Int × Int) := none
deriving DecidableEq, Repr

/-- `Move` dataclass (lines 18-32); `move_type` is `"swap"` or `"team"`. -/
structure Move where
  move_type : String
  task_id_1 : Nat
  task_id_2 : Nat
deriving DecidableEq, Repr

/-- Fitness triples, compared like Python tuples. -/
abbrev Fit := Int × Int × Int

/-- Python tuple `<` on fitness triples (lexicographic). -/
def fitLt (a b : Fit) : Bool :=
  decide (a.1 < b.1) ||
    (decide (a.1 = b.1) &&
      (decide (a.2.1 < b.2.1) || (decide (a.2.1 = b.2.1) && decide (a.2.2 < b.2.2))))

/-- Non-strict comparison derived from `fitLt`. -/
def fitLe (a b : Fit) : Prop := fitLt a b = true ∨ a = b

/-- `sys.maxsize` on a 64-bit CPython build. -/
def MAXSIZE : Int := 2 ^ 63 - 1

/-- The `INF` placeholder cost (tabu_search.py line 79). -/
def INF : Int := 10 ^ 12

/-- The flat arrays `_preprocess` stores on the middleware
(tabu_search.py lines 53-94). -/
structure PreArrays where
  num_tasks : Nat
  num_teams : Nat
  durations : List Int
  predecessors : List (List Nat)
  successors : List (List Nat)
  initial_in_degrees : List Int
  compatible_teams_indices : List (List Nat)
  team_costs : List (List Int)
  team_initial_availability : List Int
  tasks_with_teams : List Nat
deriving DecidableEq, Repr

/-- `self.team_costs[tid][team_idx] = cost`. -/
def set2d (m : List (List Int)) (i j : Nat) (v : Int) : List (List Int) :=
  match m[i]? with
  | some row => m.set i (row.set j v)
  | none => m

/-- `TabuSearchMiddleware._preprocess` (lines 64-94).  It first asserts
continuous indices (raising `ValueError` otherwise); the write
`self.team_costs[tid][team_idx] = cost` raises `IndexError` when a task
lists a compatible team id that is not a valid team index.  All remaining
writes are in range once the indices are continuous. -/
def TabuSearch.preprocess (problem : ProblemInstance) : Except PyError PreArrays :=
  match problem.assert_continuous_indices with
  | .error e => .error e
  | .ok _ =>
    let n := problem.num_tasks
    let m := problem.num_teams
    if problem.tasks.all (fun kv => kv.2.compatible_teams.all (fun tc => decide (tc.1 < m)))
    then
      .ok
        { num_tasks := n
          num_teams := m
          durations := problem.tasks.foldl
            (fun arr kv => arr.set kv.1 kv.2.duration) (List.replicate n 0)
          predecessors := problem.tasks.foldl
            (fun arr kv => arr.set kv.1 kv.2.predecessors) (List.replicate n [])
          successors := problem.tasks.foldl
            (fun arr kv => arr.set kv.1 kv.2.successors) (List.replicate n [])
          initial_in_degrees := problem.tasks.foldl
            (fun arr kv => arr.set kv.1 (kv.2.predecessors.length : Int))
            (List.replicate n 0)
          compatible_teams_indices := problem.tasks.foldl
            (fun arr kv => arr.set kv.1 (kv.2.compatible_teams.map Prod.fst))
            (List.replicate n [])
          team_costs := problem.tasks.foldl
            (fun arr kv => kv.2.compatible_teams.foldl
              (fun mm tc => set2d mm kv.1 tc.1 tc.2) arr)
            (List.replicate n (List.replicate m INF))
          team_initial_availability := problem.teams.foldl
            (fun arr kv => arr.set kv.1 kv.2.available_from) (List.replicate m 0)
          tasks_with_teams := problem.tasks.filterMap
            (fun kv => if kv.2.compatible_teams.isEmpty then none else some kv.1) }
    else .error .indexError

/-- Python tuple `<` on `(priority, tid)` heap keys. -/
def pairLt (a b : Nat × Nat) : Bool :=
  decide (a.1 < b.1) || (decide (a.1 = b.1) && decide (a.2 < b.2))

/-- Pop the smallest `(priority, tid)` pair from the ready pool.  `heapq`
always pops the minimum of the pairs it currently holds and the tids are
pairwise distinct, so the pop sequence is a function of the pool's
contents; the pool is embedded as a plain list from which the minimum is
removed. -/
def popMin : List (Nat × Nat) → Option ((Nat × Nat) × List (Nat × Nat))
  | [] => none
  | x :: xs =>
    match popMin xs with
    | none => some (x, xs)
    | some (m, rest) => if pairLt m x then some (m, x :: rest) else some (x, xs)

/-- Per-decode mutable state of `_decode` (lines 122-130). -/
structure DecodeState where
  team_available : List Int
  task_finish_times : List Int
  current_in_degrees : List Int
  ready : List (Nat × Nat)
  assignments : List Assignment
deriving DecidableEq, Repr

/-- The `for s in self.successors[task_id]:` fold of `_decode`
(lines 151-155): decrement each successor's in-degree and push those that
reach exactly zero and have a compatible team. -/
def decrementSuccs (pre : PreArrays) (priority : List Nat) (succs : List Nat)
    (acc : List Int × List (Nat × Nat)) : List Int × List (Nat × Nat) :=
  succs.foldl
    (fun (acc : List Int × List (Nat × Nat)) s =>
      let d := acc.1.set s (acc.1.getD s 0 - 1)
      if d.getD s 0 = 0 then
        if (pre.compatible_teams_indices.getD s []).isEmpty then (d, acc.2)
        else (d, acc.2 ++ [(priority.getD s 0, s)])
      else (d, acc.2))
    acc

/-- One iteration of `_decode`'s while-loop (lines 132-156), for the popped
`task_id` with remaining pool `rest`.  Out-of-range reads are embedded with
`getD` defaults; in Python those reads raise `IndexError`, and the claims
about `_decode` carry hypotheses under which every read is in range. -/
def decodeStep (pre : PreArrays) (team_assignment priority : List Nat)
    (st : DecodeState) (task_id : Nat) (rest : List (Nat × Nat)) : DecodeState :=
  let team_idx := team_assignment.getD task_id 0
  let preds_complete_time := (pre.predecessors.getD task_id []).foldl
    (fun acc p => max acc (st.task_finish_times.getD p (-1))) 0
  let start_time := max (st.team_available.getD team_idx 0) preds_complete_time
  let duration := pre.durations.getD task_id 0
  let finish_time := start_time + duration
  let step := decrementSuccs pre priority (pre.successors.getD task_id [])
    (st.current_in_degrees, rest)
  { team_available := st.team_available.set team_idx finish_time
    task_finish_times := st.task_finish_times.set task_id finish_time
    current_in_degrees := step.1
    ready := step.2
    assignments := st.assignments ++ [⟨task_id, team_idx, start_time⟩] }

/-- The while-loop of `_decode`, fuel-bounded.  Every pool insertion is
either an initial seed (at most one per entry of `tasks_with_teams`) or
follows an in-degree slot strictly decreasing through zero (at most once
per slot), so the fuel chosen by `decodeCore` dominates the number of
pops. -/
def decodeLoop (pre : PreArrays) (team_assignment priority : List Nat) :
    Nat → DecodeState → DecodeState
  | 0, st => st
  | fuel + 1, st =>
    match popMin st.ready with
    | none => st
    | some ((_, task_id), rest) =>
      decodeLoop pre team_assignment priority fuel
        (decodeStep pre team_assignment priority st task_id rest)

/-- `_decode` (lines 117-157) for explicit `task_order`/`team_assignment`
lists. -/
def TabuSearch.decodeCore (pre : PreArrays) (task_order team_assignment : List Nat) :
    List Assignment :=
  let priority := task_order.enum.foldl
    (fun arr p => arr.set p.2 p.1) (List.replicate pre.num_tasks 0)
  let ready := pre.tasks_with_teams.filterMap
    (fun tid =>
      if pre.initial_in_degrees.getD tid 0 = 0 then some (priority.getD tid 0, tid)
      else none)
  let st₀ : DecodeState :=
    { team_available := pre.team_initial_availability
      task_finish_times := List.replicate pre.num_tasks (-1)
      current_in_degrees := pre.initial_in_degrees
      ready := ready
      assignments := [] }
  (decodeLoop pre team_assignment priority
      (pre.tasks_with_teams.length + pre.num_tasks + 1) st₀).assignments

/-- `_decode` applied to a `Solution`: it reads only `task_order` and
`team_assignment`, never the cached `fitness`. -/
def TabuSearch.decode (pre : PreArrays) (solution : Solution) : List Assignment :=
  TabuSearch.decodeCore pre solution.task_order solution.team_assignment

/-- `_evaluate` (lines 159-180), result only (the cache write is modelled by
`evaluateUpdate`). -/
def TabuSearch.evaluate (pre : PreArrays) (solution : Solution) : Fit :=
  match solution.fitness with
  | some f => f
  | none =>
    let assignments := TabuSearch.decode pre solution
    if assignments.isEmpty then (0, MAXSIZE, MAXSIZE)
    else
      let task_count := (assignments.length : Int)
      let completion_time := assignments.foldl
        (fun acc a => max acc (a.start_time + pre.durations.getD a.task_id 0)) 0
      let total_cost := assignments.foldl
        (fun acc a => acc + (pre.team_costs.getD a.task_id []).getD a.team_id 0) 0
      (-task_count, completion_time, total_cost)

/-- `_evaluate` with its cache mutation: when the decode is non-empty the
fitness triple is stored on the solution (lines 166 and 179). -/
def TabuSearch.evaluateUpdate (pre : PreArrays) (solution : Solution) : Fit × Solution :=
  let f := TabuSearch.evaluate pre solution
  if (TabuSearch.decode pre solution).isEmpty then (f, solution)
  else (f, { solution with fitness := some f })

/-- Constructor parameters of the middleware (lines 41-51). -/
structure TabuParams where
  tabu_tenure : Nat := 20
  max_neighbors : Nat := 500
deriving Repr

/-- Oracle standing in for the `random` module: `sample_swaps` and
`sample_teams` embed `random.sample(candidates, max_neighbors // 2)`,
`shuffle` embeds `random.shuffle`, and `choice` embeds
`random.choice` on a non-empty list. -/
structure TabuOracle where
  sample_swaps : List (Nat × Nat) → List (Nat × Nat)
  sample_teams : List (Nat × Nat) → List (Nat × Nat)
  shuffle : List Nat → List Nat
  choice : List Nat → Nat

/-- The nested loop `for i in range(n): for j in range(i+1, n)`
(lines 192-195). -/
def swapCandidates (n : Nat) : List (Nat × Nat) :=
  (List.range n).flatMap
    (fun i => (List.range n).filterMap (fun j => if i < j then some (i, j) else none))

/-- `_get_neighbors` (lines 182-234): sampled swap neighbors followed by
sampled team-reassignment neighbors.  (The `tabu_list`/`current_iter`
parameters of the Python method are unused by its body.) -/
def TabuSearch.get_neighbors (P : TabuParams) (pre : PreArrays) (oracle : TabuOracle)
    (current : Solution) : List (Solution × Move) :=
  let task_order := current.task_order
  let n := task_order.length
  let swap_candidates := swapCandidates n
  let swap_candidates :=
    if P.max_neighbors / 2 < swap_candidates.length then oracle.sample_swaps swap_candidates
    else swap_candidates
  let swap_neighbors : List (Solution × Move) := swap_candidates.map (fun ij =>
    let new_order := (task_order.set ij.1 (task_order.getD ij.2 0)).set ij.2
      (task_order.getD ij.1 0)
    (⟨new_order, current.team_assignment, none⟩,
     ⟨"swap", task_order.getD ij.1 0, task_order.getD ij.2 0⟩))
  let reassign_candidates := pre.tasks_with_teams.flatMap (fun tid =>
    let opts := pre.compatible_teams_indices.getD tid []
    if 1 < opts.length then
      opts.filterMap (fun new_team_idx =>
        if new_team_idx ≠ current.team_assignment.getD tid 0 then some (tid, new_team_idx)
        else none)
    else [])
  let reassign_candidates :=
    if P.max_neighbors / 2 < reassign_candidates.length then
      oracle.sample_teams reassign_candidates
    else reassign_candidates
  let team_neighbors : List (Solution × Move) := reassign_candidates.map (fun tn =>
    (⟨current.task_order, current.team_assignment.set tn.1 tn.2, none⟩,
     ⟨"team", tn.1, tn.2⟩))
  swap_neighbors ++ team_neighbors

/-- `_is_tabu` (lines 236-241). -/
def TabuSearch.is_tabu (move : Move) (tabu_list : List (Move × Nat))
    (current_iter : Nat) : Bool :=
  match tabu_list.find? (fun me => me.1 = move) with
  | none => false
  | some me => decide (current_iter < me.2)

/-- `tabu_list[move] = expiry` (overwrite; first-match lookup makes the
fresh entry shadow older ones, and expiries for a given move only grow). -/
def tabuAdd (tabu_list : List (Move × Nat)) (move : Move) (expiry : Nat) :
    List (Move × Nat) :=
  (move, expiry) :: tabu_list

/-- State of the `map_result` search loop (lines 256-263). -/
structure TabuState where
  current : Solution
  current_score : Fit
  best : Solution
  best_score : Fit
  tabu_list : List (Move × Nat)
  iteration : Nat
  check_idx : Nat
deriving Repr

/-- The neighbor-evaluation loop (lines 272-292): evaluate each neighbor in
order (an expired budget check breaks out early), skip tabu moves unless
they beat the global best (aspiration), keep the admissible neighbor with
strictly smallest fitness (ties keep the earlier one).  Returns the
selected neighbor, its score, and the number of budget checks consumed. -/
def selectNeighbor (pre : PreArrays) (expired : Nat → Bool)
    (tabu_list : List (Move × Nat)) (iteration : Nat) (best_score : Fit) :
    List (Solution × Move) → Nat → Option (Solution × Move) → Fit →
      Option (Solution × Move) × Fit × Nat
  | [], idx, best_neighbor, best_neighbor_score => (best_neighbor, best_neighbor_score, idx)
  | (neighbor, move) :: rest, idx, best_neighbor, best_neighbor_score =>
    if expired idx then (best_neighbor, best_neighbor_score, idx + 1)
    else
      let (score, neighbor') := TabuSearch.evaluateUpdate pre neighbor
      if TabuSearch.is_tabu move tabu_list iteration && ¬ fitLt score best_score then
        selectNeighbor pre expired tabu_list iteration best_score rest (idx + 1)
          best_neighbor best_neighbor_score
      else if fitLt score best_neighbor_score then
        selectNeighbor pre expired tabu_list iteration best_score rest (idx + 1)
          (some (neighbor', move)) score
      else
        selectNeighbor pre expired tabu_list iteration best_score rest (idx + 1)
          best_neighbor best_neighbor_score

/-- Diversification (lines 295-305): fresh shuffled order over the
schedulable tasks and a random compatible team per schedulable task. -/
def TabuSearch.diversify (pre : PreArrays) (oracle : TabuOracle) : Solution :=
  let task_order := oracle.shuffle pre.tasks_with_teams
  let team_assignment := pre.tasks_with_teams.foldl
    (fun arr tid => arr.set tid (oracle.choice (pre.compatible_teams_indices.getD tid [])))
    (List.replicate pre.num_tasks 0)
  ⟨task_order, team_assignment, none⟩

/-- Result of one outer iteration: either the loop exits (budget expired at
the top-of-loop check, or no neighbors) or continues with a new state. -/
inductive TabuStepResult where
  | exit (st : TabuState)
  | next (st : TabuState)
deriving Repr

def TabuStepResult.state : TabuStepResult → TabuState
  | .exit st => st
  | .next st => st

/-- The tail of an outer iteration that accepted `neighbor` via `move` with
fitness `score` (lines 309-325): transition unconditionally, tabu the move
(and the reverse of a swap), update the global best on strict improvement,
compact the tabu table every 100 iterations. -/
def TabuSearch.acceptNeighbor (P : TabuParams) (st : TabuState) (neighbor : Solution)
    (move : Move) (score : Fit) : TabuState :=
  let st₁ := { st with current := neighbor, current_score := score }
  let tabu_list := tabuAdd st₁.tabu_list move (st₁.iteration + P.tabu_tenure)
  let tabu_list :=
    if move.move_type = "swap" then
      tabuAdd tabu_list ⟨"swap", move.task_id_2, move.task_id_1⟩
        (st₁.iteration + P.tabu_tenure)
    else tabu_list
  let st₂ := { st₁ with tabu_list := tabu_list }
  let st₃ :=
    if fitLt st₂.current_score st₂.best_score then
      { st₂ with best := st₂.current, best_score := st₂.current_score }
    else st₂
  if st₃.iteration % 100 = 0 then
    { st₃ with tabu_list := st₃.tabu_list.filter (fun me => st₃.iteration < me.2) }
  else st₃

/-- One outer iteration of the `while not budget.is_expired():` loop
(lines 265-325), including the top-of-loop budget check. -/
def TabuSearch.outerStep (P : TabuParams) (pre : PreArrays) (oracle : TabuOracle)
    (expired : Nat → Bool) (st : TabuState) : TabuStepResult :=
  if expired st.check_idx then .exit { st with check_idx := st.check_idx + 1 }
  else
    let st' := { st with check_idx := st.check_idx + 1, iteration := st.iteration + 1 }
    let neighbors := TabuSearch.get_neighbors P pre oracle st'.current
    if neighbors.isEmpty then .exit st'
    else
      let sel := selectNeighbor pre expired st'.tabu_list st'.iteration st'.best_score
        neighbors st'.check_idx none (MAXSIZE, MAXSIZE, MAXSIZE)
      match sel.1 with
      | none =>
        let pair := TabuSearch.evaluateUpdate pre (TabuSearch.diversify pre oracle)
        .next { st' with check_idx := sel.2.2, current := pair.2, current_score := pair.1 }
      | some (neighbor, move) =>
        .next (TabuSearch.acceptNeighbor P { st' with check_idx := sel.2.2 }
          neighbor move sel.2.1)

/-- The outer loop, fuel-bounded: `none` means the loop has not finished
within `fuel` body executions (Python runs it unboundedly). -/
def TabuSearch.loop (P : TabuParams) (pre : PreArrays) (oracle : TabuOracle)
    (expired : Nat → Bool) : Nat → TabuState → Option TabuState
  | 0, st =>
    match TabuSearch.outerStep P pre oracle expired st with
    | .exit st' => some st'
    | .next _ => none
  | fuel + 1, st =>
    match TabuSearch.outerStep P pre oracle expired st with
    | .exit st' => some st'
    | .next st' => TabuSearch.loop P pre oracle expired fuel st'

/-- `_schedule_to_solution` (lines 96-115). -/
def TabuSearch.schedule_to_solution (pre : PreArrays) (oracle : TabuOracle)
    (schedule : Schedule) : Solution :=
  let sorted_assignments :=
    schedule.assignments.insertionSort (fun a b => a.start_time ≤ b.start_time)
  let task_order := sorted_assignments.map (fun a => a.task_id)
  let remaining := pre.tasks_with_teams.filter (fun tid => ¬ task_order.contains tid)
  let remaining := oracle.shuffle remaining
  let task_order := task_order ++ remaining
  let team_assignment := schedule.assignments.foldl
    (fun arr a => arr.set a.task_id a.team_id) (List.replicate pre.num_tasks 0)
  let team_assignment := remaining.foldl
    (fun arr tid =>
      let opts := pre.compatible_teams_indices.getD tid []
      if opts.isEmpty then arr else arr.set tid (oracle.choice opts))
    team_assignment
  ⟨task_order, team_assignment, none⟩

/-- `TimeBudget` (src/paas/time_budget.py lines 5-24) defines neither
`__enter__` nor `__exit__`, so it does not support the context manager
protocol. -/
def timeBudgetSupportsContextManager : Bool := false

/-- `TabuSearchMiddleware.map_result` (lines 243-327): preprocess (which can
raise), return the seed schedule untouched when no task is schedulable,
then enter `with TimeBudget(time_limit) as budget:` — which raises
`TypeError`, because `TimeBudget` is not a context manager.  The search
loop that would run inside the `with` block is embedded anyway (so that its
iteration-level properties can be stated); `.ok none` encodes a loop that
has not terminated within `fuel` outer iterations. -/
def TabuSearchMiddleware.map_result (P : TabuParams) (oracle : TabuOracle)
    (expired : Nat → Bool) (fuel : Nat) (problem : ProblemInstance) (result : Schedule) :
    Except PyError (Option Schedule) :=
  match TabuSearch.preprocess problem with
  | .error e => .error e
  | .ok pre =>
    if pre.tasks_with_teams.isEmpty then .ok (some result)
    else if ¬ timeBudgetSupportsContextManager then
      .error (.typeError "TimeBudget object does not support the context manager protocol")
    else
      let pair := TabuSearch.evaluateUpdate pre
        (TabuSearch.schedule_to_solution pre oracle result)
      let st₀ : TabuState :=
        { current := pair.2, current_score := pair.1, best := pair.2,
          best_score := pair.1, tabu_list := [], iteration := 0, check_idx := 0 }
      match TabuSearch.loop P pre oracle expired fuel st₀ with
      | none => .ok none
      | some stF => .ok (some ⟨TabuSearch.decode pre stF.best⟩)

/-! ## Hypothesis predicates and proof-side invariants for the decode claims -/

/-- Mutual consistency of the dependency lists: `p` occurs as a predecessor
of `t` exactly as often as `t` occurs as a successor of `p` (over all pairs
of ids; an id occurring in a list whose counterpart is not a task makes the
instance inconsistent). -/
def consistentLists (p : ProblemInstance) : Bool :=
  p.tasks.all (fun av =>
    av.2.successors.all (fun b => dictContains p.tasks b) &&
    av.2.predecessors.all (fun b => dictContains p.tasks b) &&
    p.tasks.all (fun bv => av.2.successors.count bv.1 == bv.2.predecessors.count av.1))

/-- The data-model invariant of §3: durations are non-negative. -/
def nonnegDurations (p : ProblemInstance) : Bool :=
  p.tasks.all (fun kv => decide (0 ≤ kv.2.duration))

/-- `solution.team_assignment` maps every task with a non-empty
`compatible_teams` to one of its compatible teams. -/
def compatAssignment (p : ProblemInstance) (team_assignment : List Nat) : Prop :=
  ∀ tid t, dictLookup p.tasks tid = some t → t.compatible_teams ≠ [] →
    team_assignment.getD tid 0 ∈ t.compatible_teams.map Prod.fst

/-- How the arrays produced by `_preprocess` relate to the instance; this is
what the decode proofs consume. -/
structure PreSpec (p : ProblemInstance) (pre : PreArrays) : Prop where
  num_tasks_eq : pre.num_tasks = p.num_tasks
  num_teams_eq : pre.num_teams = p.num_teams
  dur_eq : ∀ tid t, dictLookup p.tasks tid = some t →
    pre.durations.getD tid 0 = t.duration
  preds_eq : ∀ tid t, dictLookup p.tasks tid = some t →
    pre.predecessors.getD tid [] = t.predecessors
  succs_eq : ∀ tid t, dictLookup p.tasks tid = some t →
    pre.successors.getD tid [] = t.successors
  indeg_eq : ∀ tid t, dictLookup p.tasks tid = some t →
    pre.initial_in_degrees.getD tid 0 = (t.predecessors.length : Int)
  compat_eq : ∀ tid t, dictLookup p.tasks tid = some t →
    pre.compatible_teams_indices.getD tid [] = t.compatible_teams.map Prod.fst
  compat_empty : ∀ tid, (dictLookup p.tasks tid).isNone →
    pre.compatible_teams_indices.getD tid [] = []
  avail_eq : ∀ j team, dictLookup p.teams j = some team →
    pre.team_initial_availability.getD j 0 = team.available_from
  twt_eq : pre.tasks_with_teams = p.tasks.filterMap
    (fun kv => if kv.2.compatible_teams.isEmpty then none else some kv.1)
  avail_len : pre.team_initial_availability.length = p.num_teams
  indeg_len : pre.initial_in_degrees.length = p.num_tasks
  keys_range : ∀ tid, (dictLookup p.tasks tid).isSome ↔ tid < p.num_tasks
  teams_range : ∀ j, (dictLookup p.teams j).isSome ↔ j < p.num_teams
  compat_range : ∀ tid t, dictLookup p.tasks tid = some t →
    ∀ tc ∈ t.compatible_teams, tc.1 < p.num_teams

/-- Duration of task `tid` as the decode simulation reads it. -/
def durOf (pre : PreArrays) (tid : Nat) : Int := pre.durations.getD tid 0

/-- Task ids of the assignments emitted so far. -/
def schedIds (st : DecodeState) : List Nat := st.assignments.map (fun a => a.task_id)

/-- The invariant maintained by `_decode`'s while-loop. -/
structure DecodeInv (p : ProblemInstance) (pre : PreArrays) (team_assignment : List Nat)
    (st : DecodeState) : Prop where
  nodup_sched : (schedIds st).Nodup
  task_ok : ∀ a ∈ st.assignments, ∃ t, dictLookup p.tasks a.task_id = some t ∧
    a.team_id = team_assignment.getD a.task_id 0 ∧
    a.team_id ∈ t.compatible_teams.map Prod.fst
  avail_ok : ∀ a ∈ st.assignments, ∃ team, dictLookup p.teams a.team_id = some team ∧
    team.available_from ≤ a.start_time
  fin_sched : ∀ a ∈ st.assignments,
    st.task_finish_times.getD a.task_id (-1) = a.start_time + durOf pre a.task_id
  prec_ok : ∀ a ∈ st.assignments, ∀ q ∈ pre.predecessors.getD a.task_id [],
    q ∈ schedIds st ∧ st.task_finish_times.getD q (-1) ≤ a.start_time
  team_avail_lb : ∀ j team, dictLookup p.teams j = some team →
    team.available_from ≤ st.team_available.getD j 0
  team_fin_ub : ∀ a ∈ st.assignments,
    a.start_time + durOf pre a.task_id ≤ st.team_available.getD a.team_id 0
  team_pairwise : st.assignments.Pairwise (fun a b => a.team_id = b.team_id →
    a.start_time + durOf pre a.task_id ≤ b.start_time)
  ready_nodup : (st.ready.map Prod.snd).Nodup
  ready_fresh : ∀ pr s, (pr, s) ∈ st.ready → s ∉ schedIds st
  ready_ok : ∀ pr s, (pr, s) ∈ st.ready → ∃ t, dictLookup p.tasks s = some t ∧
    t.compatible_teams ≠ [] ∧ ∀ q ∈ t.predecessors, q ∈ schedIds st
  indeg_book : ∀ s, s < p.num_tasks → st.current_in_degrees.getD s 0 =
    pre.initial_in_degrees.getD s 0 -
      (st.assignments.map (fun a => ((pre.successors.getD a.task_id []).count s : Int))).sum
  indeg_len : st.current_in_degrees.length = p.num_tasks
  fin_len : st.task_finish_times.length = p.num_tasks
  avail_len : st.team_available.length = p.num_teams
  pool_zero : ∀ pr s, (pr, s) ∈ st.ready → st.current_in_degrees.getD s 0 = 0
  sched_zero : ∀ a ∈ st.assignments, st.current_in_degrees.getD a.task_id 0 = 0
  zero_in_pool : ∀ s t, dictLookup p.tasks s = some t → t.compatible_teams ≠ [] →
    st.current_in_degrees.getD s 0 = 0 → s ∈ schedIds st ∨ s ∈ st.ready.map Prod.snd

/-- Direct-predecessor relation read off the instance: `b` is listed among
the predecessors of task `a`. -/
def predOf (p : ProblemInstance) (b a : Nat) : Prop :=
  ∃ ta, dictLookup p.tasks a = some ta ∧ b ∈ ta.predecessors

/-- The transitive predecessors ("ancestors") of task `s`. -/
def ancestors (p : ProblemInstance) (s : Nat) : Set Nat :=
  {b | Relation.TransGen (predOf p) b s}

/-- A team assignment picking each task's first compatible team (tasks
without a compatible team get the dummy value 0; `_decode` never schedules
them). -/
def canonicalAssignment (p : ProblemInstance) : List Nat :=
  (List.range p.num_tasks).map (fun tid =>
    match dictLookup p.tasks tid with
    | some t => (t.compatible_teams.map Prod.fst).headD 0
    | none => 0)

/-- The duration the checker reads for task `tid` (defaulting to 0 when the
task is absent; that branch is unreachable wherever this is used). -/
def taskDur (p : ProblemInstance) (tid : Nat) : Int :=
  match dictLookup p.tasks tid with
  | some t => t.duration
  | none => 0

/-! ## Concrete example instances used in witnesses and counterexamples -/

/-- An instance whose declared `num_teams` (2) differs from its actual
number of teams (1). -/
def exBadTeamCount : ProblemInstance :=
  { num_tasks := 0, num_teams := 2, tasks := [],
    teams := [(0, { id := 0, available_from := 0 })] }

/-- A well-formed continuous instance with two independent schedulable
tasks and one team. -/
def exTabuInstance : ProblemInstance :=
  { num_tasks := 2, num_teams := 1,
    tasks :=
      [(0, { id := 0, duration := 4, compatible_teams := [(0, 2)] }),
       (1, { id := 1, duration := 6, compatible_teams := [(0, 3)] })],
    teams := [(0, { id := 0, available_from := 0 })] }

/-- A deterministic oracle: sampling and shuffling keep the list as is,
`choice` takes the head. -/
def defaultOracle : TabuOracle :=
  { sample_swaps := fun l => l
    sample_teams := fun l => l
    shuffle := fun l => l
    choice := fun l => l.headD 0 }

/-- The preprocessed arrays of `exTabuInstance`. -/
def exTabuPre : PreArrays :=
  match TabuSearch.preprocess exTabuInstance with
  | .ok pre => pre
  | .error _ =>
    { num_tasks := 0, num_teams := 0, durations := [], predecessors := [],
      successors := [], initial_in_degrees := [], compatible_teams_indices := [],
      team_costs := [], team_initial_availability := [], tasks_with_teams := [] }

/-- A concrete search-space point over `exTabuInstance`. -/
def exTabuSolution : Solution :=
  { task_order := [0, 1], team_assignment := [0, 0], fitness := none }

/-- A continuous acyclic instance in which task 0 has no compatible team,
task 1 (which has one) depends on task 0, and task 2 is independent. -/
def exC10Instance : ProblemInstance :=
  { num_tasks := 3, num_teams := 1,
    tasks :=
      [(0, { id := 0, duration := 1, successors := [1], compatible_teams := [] }),
       (1, { id := 1, duration := 1, predecessors := [0], compatible_teams := [(0, 1)] }),
       (2, { id := 2, duration := 1, compatible_teams := [(0, 2)] })],
    teams := [(0, { id := 0, available_from := 0 })] }

/-- A concrete search-space point over `exC10Instance`. -/
def exC10Solution : Solution :=
  { task_order := [0, 1, 2], team_assignment := [0, 0, 0], fitness := none }

/-- The preprocessed arrays of `exC10Instance`. -/
def exC10Pre : PreArrays :=
  match TabuSearch.preprocess exC10Instance with
  | .ok pre => pre
  | .error _ =>
    { num_tasks := 0, num_teams := 0, durations := [], predecessors := [],
      successors := [], initial_in_degrees := [], compatible_teams_indices := [],
      team_costs := [], team_initial_availability := [], tasks_with_teams := [] }

/-- The scenario of §8 of the specification: edges `1 -> 2`, `2 -> 3`,
`3 -> 2` (a 2-cycle between tasks 2 and 3) and an isolated task 4. -/
def exCycleInstance : ProblemInstance :=
  { num_tasks := 4, num_teams := 1,
    tasks :=
      [(1, { id := 1, duration := 10, successors := [2], compatible_teams := [(0, 1)] }),
       (2, { id := 2, duration := 10, predecessors := [1, 3], successors := [3],
             compatible_teams := [(0, 1)] }),
       (3, { id := 3, duration := 10, predecessors := [2], successors := [2],
             compatible_teams := [(0, 1)] }),
       (4, { id := 4, duration := 10, compatible_teams := [(0, 1)] })],
    teams := [(0, { id := 0, available_from := 0 })] }

/-- A small acyclic chain `1 -> 2` of two schedulable tasks. -/
def exChainInstance : ProblemInstance :=
  { num_tasks := 2, num_teams := 1,
    tasks :=
      [(1, { id := 1, duration := 5, successors := [2], compatible_teams := [(0, 2)] }),
       (2, { id := 2, duration := 7, predecessors := [1], compatible_teams := [(0, 3)] })],
    teams := [(0, { id := 0, available_from := 0 })] }

/-- A sparse instance (task id 1, team id 5) with consistent declared
cardinalities. -/
def exSparseInstance : ProblemInstance :=
  { num_tasks := 1, num_teams := 1,
    tasks := [(1, { id := 1, duration := 3, compatible_teams := [(5, 4)] })],
    teams := [(5, { id := 5, available_from := 2 })] }

/-! # Theorems -/

theorem assert_continuous_indices_ok_iff (p : ProblemInstance) :
    p.assert_continuous_indices = .ok () ↔ continuousOk p := by
  unfold ProblemInstance.assert_continuous_indices continuousOk
  by_cases h1 : setEqRange (dictKeys p.tasks) p.num_tasks
  · by_cases h2 : setEqRange (dictKeys p.teams) p.num_teams
    · simp [h1, h2]
    · simp [h1, h2]
  · simp [h1]

theorem setEqRange_iff (l : List Nat) (n : Nat) :
    setEqRange l n = true ↔ ∀ i, i ∈ l ↔ i < n := by
  unfold setEqRange
  simp only [Bool.and_eq_true, List.all_eq_true, decide_eq_true_eq, List.elem_iff,
    List.mem_range]
  constructor
  · rintro ⟨h1, h2⟩ i
    exact ⟨fun hi => h1 i hi, fun hi => h2 i hi⟩
  · intro h
    exact ⟨fun i hi => (h i).1 hi, fun i hi => (h i).2 hi⟩

/-- A task id that is a key of `tasks` and not in `to_remove` survives
`DependencyPruner.rebuild` as a key. -/
theorem mem_dictKeys_rebuild (tasks : List (Nat × Task)) (to_remove : List Nat)
    (x : Nat) (hx : x ∈ dictKeys tasks) (hnx : to_remove.contains x = false) :
    x ∈ dictKeys (DependencyPruner.rebuild tasks to_remove) := by
  rw [dictKeys, List.mem_map] at hx
  obtain ⟨kv', hkv', hx'⟩ := hx
  rw [dictKeys, List.mem_map]
  unfold DependencyPruner.rebuild
  simp only [List.mem_filterMap]
  refine ⟨(kv'.1, { kv'.2 with
    predecessors := kv'.2.predecessors.filter
      (fun q => (dictKeys tasks).contains q && ¬ to_remove.contains q),
    successors := kv'.2.successors.filter
      (fun s => (dictKeys tasks).contains s && ¬ to_remove.contains s) }), ?_, hx'⟩
  refine ⟨kv', hkv', ?_⟩
  rw [hx', hnx]
  simp

/-- Any task id referenced by a surviving task of `DependencyPruner` output
is itself a surviving task id: the pruner's final rebuild filters both
adjacency lists to `final_valid_ids`, which is exactly the surviving key
set. -/
theorem dependencyPruner_no_dangling (q : ProblemInstance) (id : Nat) (t : Task)
    (hmem : (id, t) ∈ (DependencyPruner.map_problem q).tasks) :
    (∀ x ∈ t.predecessors, x ∈ dictKeys (DependencyPruner.map_problem q).tasks) ∧
      (∀ x ∈ t.successors, x ∈ dictKeys (DependencyPruner.map_problem q).tasks) := by
  unfold DependencyPruner.map_problem at hmem ⊢
  simp only at hmem ⊢
  generalize DependencyPruner.propagate q.tasks
    (propagateFuel q.tasks
      (q.tasks.filterMap (fun kv =>
        if kv.2.predecessors.any (fun r => ¬ (dictKeys q.tasks).contains r) then some kv.1
        else none)))
    (q.tasks.filterMap (fun kv =>
        if kv.2.predecessors.any (fun r => ¬ (dictKeys q.tasks).contains r) then some kv.1
        else none))
    (q.tasks.filterMap (fun kv =>
        if kv.2.predecessors.any (fun r => ¬ (dictKeys q.tasks).contains r) then some kv.1
        else none)) = to_remove at hmem ⊢
  unfold DependencyPruner.rebuild at hmem
  simp only [List.mem_filterMap] at hmem
  obtain ⟨kv, hkv, hf⟩ := hmem
  split at hf
  · exact absurd hf (by simp)
  · next hc =>
    rw [Option.some_inj] at hf
    cases hf
    refine ⟨?_, ?_⟩ <;>
    · intro x hxmem
      simp only [List.mem_filter, Bool.and_eq_true, decide_eq_true_eq] at hxmem
      obtain ⟨-, hv, hr⟩ := hxmem
      refine mem_dictKeys_rebuild q.tasks to_remove x ?_ ?_
      · exact List.elem_iff.mp hv
      · exact Bool.eq_false_iff.mpr hr

/-- C6: for every ProblemInstance, in the instance obtained by applying
CycleRemover and then DependencyPruner, every surviving task's
`predecessors` and `successors` lists contain only ids of surviving tasks
(no dangling ids). -/
theorem cycleRemover_then_dependencyPruner_no_dangling (p : ProblemInstance)
    (id : Nat) (t : Task)
    (hmem : (id, t) ∈ (DependencyPruner.map_problem (CycleRemover.map_problem p)).tasks) :
    (∀ x ∈ t.predecessors,
        x ∈ dictKeys (DependencyPruner.map_problem (CycleRemover.map_problem p)).tasks) ∧
      (∀ x ∈ t.successors,
        x ∈ dictKeys (DependencyPruner.map_problem (CycleRemover.map_problem p)).tasks) :=
  dependencyPruner_no_dangling (CycleRemover.map_problem p) id t hmem

theorem cycleRemover_then_dependencyPruner_no_dangling_witness :
    ((2, { id := 2, duration := 7, predecessors := [1], successors := [],
           compatible_teams := [(0, 3)] }) ∈
        (DependencyPruner.map_problem (CycleRemover.map_problem exChainInstance)).tasks) ∧
      ((∀ x ∈ ({ id := 2, duration := 7, predecessors := [1], successors := [],
                 compatible_teams := [(0, 3)] } : Task).predecessors,
          x ∈ dictKeys
            (DependencyPruner.map_problem (CycleRemover.map_problem exChainInstance)).tasks) ∧
        (∀ x ∈ ({ id := 2, duration := 7, predecessors := [1], successors := [],
                  compatible_teams := [(0, 3)] } : Task).successors,
          x ∈ dictKeys
            (DependencyPruner.map_problem (CycleRemover.map_problem exChainInstance)).tasks)) :=
  ⟨by decide, cycleRemover_then_dependencyPruner_no_dangling exChainInstance 2 _ (by decide)⟩

/-- C3 (divergence witness): on the scenario with edges `1->2->3->2` and an
isolated task 4, `CycleRemover.map_problem` removes exactly tasks 2 and 3
and keeps 1 and 4, but — contrary to the claim (and to the repository's own
test_cycle_remover.py, which asserts the stale reference survives) — it
filters the removed id 2 out of task 1's successor list, so no dangling
reference is left for DependencyPruner. -/
theorem cycleRemover_cleans_stale_reference :
    (CycleRemover.map_problem exCycleInstance).tasks.map Prod.fst = [1, 4] ∧
      dictLookup (CycleRemover.map_problem exCycleInstance).tasks 1 =
        some { id := 1, duration := 10, predecessors := [], successors := [],
               compatible_teams := [(0, 1)] } :=
  ⟨by decide, by decide⟩

/-- C2 (divergence witness): `MapProblem.run` forwards the `time_limit`
keyword to `map_problem` (base.py line 67); the `map_problem` overrides of
CycleRemover (cycle_remover.py line 14) and DependencyPruner
(dependency_pruner.py line 11) do not accept that keyword, so invoking
those middlewares through the `run` interface raises TypeError, while
ImpossibleTaskRemover (whose override does declare `time_limit`) succeeds. -/
theorem graphRepair_run_raises_typeError :
    MapProblem.run cycleRemoverImpl (fun _ => { assignments := [] }) exCycleInstance =
        .error (.typeError "map_problem got an unexpected keyword argument time_limit") ∧
      MapProblem.run dependencyPrunerImpl (fun _ => { assignments := [] }) exCycleInstance =
        .error (.typeError "map_problem got an unexpected keyword argument time_limit") ∧
      MapProblem.run impossibleTaskRemoverImpl (fun _ => { assignments := [] })
          exCycleInstance =
        .ok { assignments := [] } :=
  ⟨rfl, rfl, rfl⟩

/-- C9: with stage `time_factor`s `[1, 2, 2]` (two middlewares and the
terminal solver) and a total budget of 10, the allotted sub-budgets are
exactly `[2, 4, 4]`; in general, whenever the total weight is positive,
stage `i` receives `T * time_factor_i / total_weight` where the total
weight sums the `time_factor`s of all stages including the solver. -/
theorem pipeline_budget_allocation :
    pipelineBudgets [1, 2] 2 10 = [2, 4, 4] ∧
      ∀ (ms : List ℚ) (s T : ℚ), 0 < ms.sum + s →
        pipelineBudgets ms s T = (ms ++ [s]).map (fun f => T * f / (ms.sum + s)) := by
  constructor
  · norm_num [pipelineBudgets]
  · intro ms s T h
    have key : ∀ f : ℚ, (if ms.sum + s > 0 then f / (ms.sum + s) * T else 0) =
        T * f / (ms.sum + s) := by
      intro f
      rw [if_pos h]
      ring
    calc pipelineBudgets ms s T
        = ms.map (fun f => if ms.sum + s > 0 then f / (ms.sum + s) * T else 0)
            ++ [if ms.sum + s > 0 then s / (ms.sum + s) * T else 0] := rfl
      _ = ms.map (fun f => T * f / (ms.sum + s)) ++ [T * s / (ms.sum + s)] := by
          rw [key s]
          congr 1
          exact List.map_congr_left (fun a _ => key a)
      _ = (ms ++ [s]).map (fun f => T * f / (ms.sum + s)) := by
          rw [List.map_append, List.map_cons, List.map_nil]

/-! ### Association-list and array lemmas -/

theorem dictLookup_mem {α : Type} {d : List (Nat × α)} {k : Nat} {v : α}
    (h : dictLookup d k = some v) : (k, v) ∈ d := by
  induction d with
  | nil => simp [dictLookup, List.lookup] at h
  | cons kv rest ih =>
    rw [dictLookup] at h
    obtain ⟨k1, v1⟩ := kv
    rw [List.lookup_cons] at h
    by_cases hk : k = k1
    · subst hk
      simp only [beq_self_eq_true] at h
      cases h
      exact List.mem_cons_self _ _
    · have : (k == k1) = false := beq_false_of_ne hk
      rw [this] at h
      exact List.mem_cons_of_mem _ (ih h)

theorem dictLookup_isSome_iff {α : Type} (d : List (Nat × α)) (k : Nat) :
    (dictLookup d k).isSome ↔ k ∈ dictKeys d := by
  induction d with
  | nil => simp [dictLookup, dictKeys, List.lookup]
  | cons kv rest ih =>
    obtain ⟨k1, v1⟩ := kv
    rw [dictLookup, List.lookup_cons, dictKeys]
    by_cases hk : k = k1
    · simp [hk]
    · have : (k == k1) = false := beq_false_of_ne hk
      rw [this]
      simp only [List.map_cons, List.mem_cons]
      rw [← dictKeys, ← dictLookup]
      simp [ih, hk]

theorem dictLookup_eq_some_of_mem {α : Type} {d : List (Nat × α)} (hwf : dictWF d)
    {k : Nat} {v : α} (hm : (k, v) ∈ d) : dictLookup d k = some v := by
  induction d with
  | nil => cases hm
  | cons kv rest ih =>
    obtain ⟨k1, v1⟩ := kv
    rw [dictWF, dictKeys, List.map_cons, List.nodup_cons] at hwf
    rw [dictLookup, List.lookup_cons]
    rcases List.mem_cons.mp hm with h | h
    · cases h
      simp
    · have hk : k ≠ k1 := by
        intro hkk
        apply hwf.1
        rw [← hkk]
        exact List.mem_map.mpr ⟨(k, v), h, rfl⟩
      have : (k == k1) = false := beq_false_of_ne hk
      rw [this]
      exact ih hwf.2 h

theorem getD_set_self {α : Type} (l : List α) (i : Nat) (v d : α) (h : i < l.length) :
    (l.set i v).getD i d = v := by
  simp [List.getD_eq_getElem?_getD, List.getElem?_set, h]

theorem getD_set_ne {α : Type} (l : List α) (i j : Nat) (v d : α) (h : i ≠ j) :
    (l.set i v).getD j d = l.getD j d := by
  simp [List.getD_eq_getElem?_getD, List.getElem?_set, h]

theorem getD_replicate {α : Type} (n k : Nat) (d : α) :
    (List.replicate n d).getD k d = d := by
  rcases lt_or_le k n with h | h
  · simp [List.getD_eq_getElem?_getD, List.getElem?_eq_getElem, h, List.getElem_replicate]
  · rw [List.getD_eq_getElem?_getD, List.getElem?_eq_none (by simpa using h)]
    rfl

theorem foldl_set_length {α β : Type} (f : Nat × α → β) (entries : List (Nat × α))
    (init : List β) :
    (entries.foldl (fun arr kv => arr.set kv.1 (f kv)) init).length = init.length := by
  induction entries generalizing init with
  | nil => rfl
  | cons kv rest ih =>
    rw [List.foldl_cons, ih]
    exact List.length_set init kv.1 (f kv)

theorem foldl_set_getD_not_mem {α β : Type} (f : Nat × α → β) (entries : List (Nat × α))
    (init : List β) (d : β) (k : Nat) (hk : k ∉ dictKeys entries) :
    (entries.foldl (fun arr kv => arr.set kv.1 (f kv)) init).getD k d = init.getD k d := by
  induction entries generalizing init with
  | nil => rfl
  | cons kv rest ih =>
    rw [dictKeys, List.map_cons, List.mem_cons] at hk
    push_neg at hk
    rw [List.foldl_cons, ih _ (by rw [dictKeys]; exact hk.2)]
    exact getD_set_ne init kv.1 k (f kv) d (fun h => hk.1 h.symm)

theorem foldl_set_getD_mem {α β : Type} (f : Nat × α → β) {entries : List (Nat × α)}
    (hwf : dictWF entries) (init : List β) (d : β) {k : Nat} {v : α}
    (hm : (k, v) ∈ entries) (hk : k < init.length) :
    (entries.foldl (fun arr kv => arr.set kv.1 (f kv)) init).getD k d = f (k, v) := by
  induction entries generalizing init with
  | nil => cases hm
  | cons kv rest ih =>
    rw [dictWF, dictKeys, List.map_cons, List.nodup_cons] at hwf
    rw [List.foldl_cons]
    rcases List.mem_cons.mp hm with h | h
    · cases h
      rw [foldl_set_getD_not_mem f rest _ d k hwf.1]
      exact getD_set_self init k (f (k, v)) d hk
    · exact ih hwf.2 (init.set kv.1 (f kv)) h (by rw [List.length_set]; exact hk)

/-! ### `popMin` lemmas -/

theorem popMin_eq_none_iff (l : List (Nat × Nat)) : popMin l = none ↔ l = [] := by
  cases l with
  | nil => simp [popMin]
  | cons x xs =>
    rw [popMin]
    constructor
    · intro h
      rcases hp : popMin xs with - | ⟨m, rest⟩ <;> rw [hp] at h
      · cases h
      · dsimp only at h
        split at h <;> cases h
    · intro h
      cases h

theorem popMin_perm {l : List (Nat × Nat)} {x : Nat × Nat} {rest : List (Nat × Nat)}
    (h : popMin l = some (x, rest)) : l.Perm (x :: rest) := by
  induction l generalizing x rest with
  | nil => cases h
  | cons y ys ih =>
    rw [popMin] at h
    rcases hp : popMin ys with - | ⟨m, mrest⟩ <;> rw [hp] at h
    · cases h
      exact List.Perm.refl _
    · dsimp only at h
      split at h
      · cases h
        exact (List.Perm.cons y (ih hp)).trans (List.Perm.swap _ y _)
      · cases h
        exact List.Perm.refl _

/-! ### `decrementSuccs` lemmas -/

theorem decrementSuccs_cons (pre : PreArrays) (prio : List Nat) (s₀ : Nat) (ss : List Nat)
    (d : List Int) (r : List (Nat × Nat)) :
    decrementSuccs pre prio (s₀ :: ss) (d, r) =
      decrementSuccs pre prio ss
        (d.set s₀ (d.getD s₀ 0 - 1),
         if (d.set s₀ (d.getD s₀ 0 - 1)).getD s₀ 0 = 0 then
           if (pre.compatible_teams_indices.getD s₀ []).isEmpty then r
           else r ++ [(prio.getD s₀ 0, s₀)]
         else r) := by
  show List.foldl _ _ (s₀ :: ss) = _
  rw [List.foldl_cons]
  unfold decrementSuccs
  congr 1
  dsimp only
  split
  · split <;> rfl
  · rfl

theorem decrementSuccs_fst_length (pre : PreArrays) (prio : List Nat) (succs : List Nat) :
    ∀ (d : List Int) (r : List (Nat × Nat)),
    (decrementSuccs pre prio succs (d, r)).1.length = d.length := by
  induction succs with
  | nil => intro d r; rfl
  | cons s₀ ss ih =>
    intro d r
    rw [decrementSuccs_cons]
    rw [ih]
    exact List.length_set d s₀ _

theorem decrementSuccs_fst_getD (pre : PreArrays) (prio : List Nat) (succs : List Nat) :
    ∀ (d : List Int) (r : List (Nat × Nat)) (s : Nat), s < d.length →
    (decrementSuccs pre prio succs (d, r)).1.getD s 0 =
      d.getD s 0 - (succs.count s : Int) := by
  induction succs with
  | nil =>
    intro d r s hs
    simp [decrementSuccs]
  | cons s₀ ss ih =>
    intro d r s hs
    rw [decrementSuccs_cons]
    set d₁ := d.set s₀ (d.getD s₀ 0 - 1) with hd₁def
    have hlen : s < d₁.length := by rw [hd₁def, List.length_set]; exact hs
    generalize (if d₁.getD s₀ 0 = 0 then
        if (pre.compatible_teams_indices.getD s₀ []).isEmpty then r
        else r ++ [(prio.getD s₀ 0, s₀)]
      else r) = r₁
    rw [ih d₁ r₁ s hlen]
    by_cases hss : s = s₀
    · subst hss
      rw [hd₁def, getD_set_self d s _ 0 hs, List.count_cons_self]
      push_cast
      ring
    · rw [hd₁def, getD_set_ne d s₀ s _ 0 (fun h => hss h.symm),
        List.count_cons_of_ne (fun h => hss (by simpa using h))]

theorem decrementSuccs_snd_spec (pre : PreArrays) (prio : List Nat) (succs : List Nat) :
    ∀ (d : List Int) (r : List (Nat × Nat)),
    (∀ s ∈ succs, s < d.length) →
    (∀ s, s < d.length → 0 ≤ d.getD s 0 - (succs.count s : Int)) →
    ∃ q : List (Nat × Nat),
      (decrementSuccs pre prio succs (d, r)).2 = r ++ q ∧
      (q.map Prod.snd).Nodup ∧
      (∀ pr s, (pr, s) ∈ q → pr = prio.getD s 0 ∧ s ∈ succs ∧
        (pre.compatible_teams_indices.getD s []).isEmpty = false ∧
        d.getD s 0 = (succs.count s : Int) ∧ 0 < d.getD s 0) ∧
      (∀ s, s < d.length → (pre.compatible_teams_indices.getD s []).isEmpty = false →
        d.getD s 0 = (succs.count s : Int) → 0 < d.getD s 0 →
        (prio.getD s 0, s) ∈ q) := by
  induction succs with
  | nil =>
    intro d r _ _
    refine ⟨[], by simp [decrementSuccs], List.nodup_nil, ?_, ?_⟩
    · intro pr s h
      cases h
    · intro s _ _ hcount hpos
      rw [List.count_nil] at hcount
      omega
  | cons s₀ ss ih =>
    intro d r hrange hnn
    have hs₀ : s₀ < d.length := hrange s₀ (List.mem_cons_self _ _)
    have hd₀ : 0 ≤ d.getD s₀ 0 - ((s₀ :: ss).count s₀ : Int) := hnn s₀ hs₀
    have hcnt₀ : (s₀ :: ss).count s₀ = ss.count s₀ + 1 := List.count_cons_self s₀ ss
    have hge : (ss.count s₀ : Int) + 1 ≤ d.getD s₀ 0 := by
      rw [hcnt₀] at hd₀
      push_cast at hd₀
      omega
    set d₁ := d.set s₀ (d.getD s₀ 0 - 1) with hd₁
    have hd₁s₀ : d₁.getD s₀ 0 = d.getD s₀ 0 - 1 := getD_set_self d s₀ _ 0 hs₀
    have hd₁ne : ∀ s, s ≠ s₀ → d₁.getD s 0 = d.getD s 0 := fun s hne =>
      getD_set_ne d s₀ s _ 0 (fun h => hne h.symm)
    have hd₁len : d₁.length = d.length := List.length_set d s₀ _
    have hrange' : ∀ s ∈ ss, s < d₁.length := fun s hsm =>
      hd₁len ▸ hrange s (List.mem_cons_of_mem _ hsm)
    have hnn' : ∀ s, s < d₁.length → 0 ≤ d₁.getD s 0 - (ss.count s : Int) := by
      intro s hsl
      rw [hd₁len] at hsl
      by_cases hne : s = s₀
      · subst hne
        rw [hd₁s₀]
        omega
      · rw [hd₁ne s hne]
        have := hnn s hsl
        rw [List.count_cons_of_ne (by simpa using hne)] at this
        exact this
    have hcount_ne : ∀ s, s ≠ s₀ → (s₀ :: ss).count s = ss.count s := fun s hne =>
      List.count_cons_of_ne (by simpa using hne) _
    rw [decrementSuccs_cons]
    rw [← hd₁]
    by_cases hzero : d₁.getD s₀ 0 = 0
    · have hone : d.getD s₀ 0 = 1 := by omega
      have hcnt0 : ss.count s₀ = 0 := by omega
      by_cases hempty : (pre.compatible_teams_indices.getD s₀ []).isEmpty
      · -- reached zero but no compatible team: not pushed
        rw [if_pos hzero, if_pos hempty]
        obtain ⟨q, hq, hnd, hprops, hcompl⟩ := ih d₁ r hrange' hnn'
        refine ⟨q, hq, hnd, ?_, ?_⟩
        · intro pr s hmem
          obtain ⟨h1, h2, h3, h4, h5⟩ := hprops pr s hmem
          have hne : s ≠ s₀ := by
            intro he
            rw [he] at h5
            omega
          rw [hd₁ne s hne] at h4 h5
          exact ⟨h1, List.mem_cons_of_mem _ h2, h3, by rw [hcount_ne s hne]; exact h4, h5⟩
        · intro s hsl hcf hcount hpos
          by_cases hne : s = s₀
          · rw [hne, hempty] at hcf
            cases hcf
          · refine hcompl s (by rw [hd₁len]; exact hsl) hcf ?_ ?_
            · rw [hd₁ne s hne, ← hcount_ne s hne]
              exact hcount
            · rw [hd₁ne s hne]
              exact hpos
      · -- reached zero with a compatible team: pushed
        rw [if_pos hzero, if_neg hempty]
        obtain ⟨q, hq, hnd, hprops, hcompl⟩ :=
          ih d₁ (r ++ [(prio.getD s₀ 0, s₀)]) hrange' hnn'
        refine ⟨(prio.getD s₀ 0, s₀) :: q, by rw [hq, List.append_assoc]; rfl, ?_, ?_, ?_⟩
        · rw [List.map_cons, List.nodup_cons]
          refine ⟨?_, hnd⟩
          intro hc
          rw [List.mem_map] at hc
          obtain ⟨pr1s1, hm1, he1⟩ := hc
          obtain ⟨pr1, s1⟩ := pr1s1
          dsimp only at he1
          rw [he1] at hm1
          obtain ⟨-, -, -, -, h5⟩ := hprops pr1 s₀ hm1
          omega
        · intro pr s hmem
          rcases List.mem_cons.mp hmem with he | hmem'
          · injection he with he1 he2
            subst he1
            subst he2
            refine ⟨rfl, List.mem_cons_self _ _, by simpa using hempty, ?_, by omega⟩
            rw [hcnt₀, hcnt0, hone]
            norm_num
          · obtain ⟨h1, h2, h3, h4, h5⟩ := hprops pr s hmem'
            have hne : s ≠ s₀ := by
              intro he
              rw [he] at h5
              omega
            rw [hd₁ne s hne] at h4 h5
            exact ⟨h1, List.mem_cons_of_mem _ h2, h3, by rw [hcount_ne s hne]; exact h4, h5⟩
        · intro s hsl hcf hcount hpos
          by_cases hne : s = s₀
          · rw [hne]
            exact List.mem_cons_self _ _
          · refine List.mem_cons_of_mem _ (hcompl s (by rw [hd₁len]; exact hsl) hcf ?_ ?_)
            · rw [hd₁ne s hne, ← hcount_ne s hne]
              exact hcount
            · rw [hd₁ne s hne]
              exact hpos
    · -- did not reach zero at this decrement
      rw [if_neg hzero]
      obtain ⟨q, hq, hnd, hprops, hcompl⟩ := ih d₁ r hrange' hnn'
      have hd₀2 : 2 ≤ d.getD s₀ 0 := by omega
      refine ⟨q, hq, hnd, ?_, ?_⟩
      · intro pr s hmem
        obtain ⟨h1, h2, h3, h4, h5⟩ := hprops pr s hmem
        by_cases hne : s = s₀
        · subst hne
          rw [hd₁s₀] at h4 h5
          refine ⟨h1, List.mem_cons_self _ _, h3, ?_, by omega⟩
          rw [hcnt₀]
          push_cast
          omega
        · rw [hd₁ne s hne] at h4 h5
          exact ⟨h1, List.mem_cons_of_mem _ h2, h3, by rw [hcount_ne s hne]; exact h4, h5⟩
      · intro s hsl hcf hcount hpos
        by_cases hne : s = s₀
        · subst hne
          refine hcompl s (by rw [hd₁len]; exact hsl) hcf ?_ ?_
          · rw [hd₁s₀]
            rw [hcnt₀] at hcount
            push_cast at hcount ⊢
            omega
          · rw [hd₁s₀]
            omega
        · refine hcompl s (by rw [hd₁len]; exact hsl) hcf ?_ ?_
          · rw [hd₁ne s hne, ← hcount_ne s hne]
            exact hcount
          · rw [hd₁ne s hne]
            exact hpos

/-! ### Counting lemmas -/

theorem sum_map_indicator (L : List Nat) (b : Nat) :
    (L.map (fun a => if a == b then (1 : Nat) else 0)).sum = L.count b := by
  induction L with
  | nil => simp
  | cons a L' ih =>
    rw [List.map_cons, List.sum_cons, ih, List.count_cons]
    omega

theorem sum_map_count_cons (L : List Nat) (b : Nat) (P' : List Nat) :
    (L.map (fun a => (b :: P').count a)).sum =
      (L.map (fun a => P'.count a)).sum + L.count b := by
  induction L with
  | nil => simp
  | cons a0 L0 ih =>
    rw [List.map_cons, List.sum_cons, List.map_cons, List.sum_cons, ih,
      List.count_cons, List.count_cons]
    simp only [beq_iff_eq]
    rcases eq_or_ne a0 b with hab | hab
    · subst hab
      simp only [if_pos rfl]
      omega
    · rw [if_neg hab, if_neg (Ne.symm hab)]
      omega

theorem sum_map_count (L : List Nat) (hL : L.Nodup) (P : List Nat) :
    (L.map (fun a => P.count a)).sum = (P.filter (fun b => L.contains b)).length := by
  induction P with
  | nil => simp
  | cons b P' ih =>
    rw [sum_map_count_cons, ih, List.filter_cons]
    by_cases hb : b ∈ L
    · rw [List.count_eq_one_of_mem hL hb]
      have : L.contains b = true := List.elem_iff.mpr hb
      rw [this]
      simp
    · rw [List.count_eq_zero_of_not_mem hb]
      have : L.contains b = false := by
        rw [← Bool.not_eq_true]
        intro hc
        exact hb (List.elem_iff.mp hc)
      rw [this]
      simp

theorem length_filter_le_general {α : Type} (q : α → Bool) (l : List α) :
    (l.filter q).length ≤ l.length :=
  List.length_filter_le q l

theorem filter_length_eq_iff {α : Type} (q : α → Bool) (l : List α) :
    (l.filter q).length = l.length ↔ ∀ a ∈ l, q a = true := by
  induction l with
  | nil => simp
  | cons a l' ih =>
    rw [List.filter_cons]
    by_cases ha : q a
    · rw [if_pos ha]
      simp only [List.length_cons, Nat.add_right_cancel_iff, ih, List.mem_cons]
      constructor
      · intro h b hb
        rcases hb with hb | hb
        · rw [hb]; exact ha
        · exact h b hb
      · intro h b hb
        exact h b (Or.inr hb)
    · rw [if_neg ha]
      constructor
      · intro h
        have := length_filter_le_general q l'
        rw [List.length_cons] at h
        omega
      · intro h
        exact absurd (h a (List.mem_cons_self _ _)) ha

/-! ### Consequences of `consistentLists` -/

theorem consistent_succ_isSome {p : ProblemInstance} (hcons : consistentLists p = true)
    {a : Nat} {ta : Task} (ha : dictLookup p.tasks a = some ta) {b : Nat}
    (hb : b ∈ ta.successors) : (dictLookup p.tasks b).isSome := by
  rw [consistentLists, List.all_eq_true] at hcons
  obtain h := hcons (a, ta) (dictLookup_mem ha)
  rw [Bool.and_eq_true, Bool.and_eq_true] at h
  obtain ⟨⟨h1, -⟩, -⟩ := h
  rw [List.all_eq_true] at h1
  exact h1 b hb

theorem consistent_pred_isSome {p : ProblemInstance} (hcons : consistentLists p = true)
    {a : Nat} {ta : Task} (ha : dictLookup p.tasks a = some ta) {b : Nat}
    (hb : b ∈ ta.predecessors) : (dictLookup p.tasks b).isSome := by
  rw [consistentLists, List.all_eq_true] at hcons
  obtain h := hcons (a, ta) (dictLookup_mem ha)
  rw [Bool.and_eq_true, Bool.and_eq_true] at h
  obtain ⟨⟨-, h2⟩, -⟩ := h
  rw [List.all_eq_true] at h2
  exact h2 b hb

theorem consistent_count {p : ProblemInstance} (hcons : consistentLists p = true)
    {a : Nat} {ta : Task} (ha : dictLookup p.tasks a = some ta)
    {b : Nat} {tb : Task} (hb : dictLookup p.tasks b = some tb) :
    ta.successors.count b = tb.predecessors.count a := by
  rw [consistentLists, List.all_eq_true] at hcons
  obtain h := hcons (a, ta) (dictLookup_mem ha)
  rw [Bool.and_eq_true] at h
  obtain ⟨-, h3⟩ := h
  rw [List.all_eq_true] at h3
  have := h3 (b, tb) (dictLookup_mem hb)
  exact beq_iff_eq.mp this

/-! ### Fold-max lemmas (for `preds_complete_time`) -/

theorem foldl_max_ge_init (g : Nat → Int) (l : List Nat) (init : Int) :
    init ≤ l.foldl (fun acc q => max acc (g q)) init := by
  induction l generalizing init with
  | nil => exact le_refl _
  | cons q l' ih => exact le_trans (le_max_left _ _) (ih (max init (g q)))

theorem foldl_max_ge_mem (g : Nat → Int) (l : List Nat) (init : Int) :
    ∀ q ∈ l, g q ≤ l.foldl (fun acc r => max acc (g r)) init := by
  induction l generalizing init with
  | nil =>
    intro q h
    cases h
  | cons q0 l' ih =>
    intro q hq
    rcases List.mem_cons.mp hq with h | h
    · subst h
      exact le_trans (le_max_right _ _) (foldl_max_ge_init g l' _)
    · exact ih _ q h

/-! ### Interpreting the in-degree decrements under consistency -/

/-- Under consistency, the total decrement applied to slot `s` by a list
`L` of distinct scheduled task ids equals the number of predecessor
occurrences of task `s` that lie in `L`. -/
theorem decSum_interp (p : ProblemInstance) (pre : PreArrays) (hspec : PreSpec p pre)
    (hcons : consistentLists p = true)
    (L : List Nat) (hL : L.Nodup) (hLt : ∀ a ∈ L, (dictLookup p.tasks a).isSome)
    {s : Nat} {ts : Task} (hs : dictLookup p.tasks s = some ts) :
    (L.map (fun a => ((pre.successors.getD a []).count s : Int))).sum =
      ((ts.predecessors.filter (fun b => L.contains b)).length : Int) := by
  have hmap : L.map (fun a => ((pre.successors.getD a []).count s : Int)) =
      (L.map (fun a => ts.predecessors.count a)).map (Nat.cast : Nat → Int) := by
    rw [List.map_map]
    apply List.map_congr_left
    intro a ha
    obtain ⟨ta, hta⟩ := Option.isSome_iff_exists.mp (hLt a ha)
    show ((pre.successors.getD a []).count s : Int) = _
    rw [hspec.succs_eq a ta hta, consistent_count hcons hta hs]
    rfl
  rw [hmap, ← Nat.cast_list_sum, sum_map_count L hL ts.predecessors]

/-! ### Preservation of the decode invariant -/

theorem decodeStep_inv (p : ProblemInstance) (pre : PreArrays)
    (team_assignment priority : List Nat)
    (hspec : PreSpec p pre) (hcons : consistentLists p = true)
    (hsol : compatAssignment p team_assignment) (hdur : nonnegDurations p = true)
    (st : DecodeState) (hinv : DecodeInv p pre team_assignment st)
    (prio_v x : Nat) (rest : List (Nat × Nat))
    (hpop : popMin st.ready = some ((prio_v, x), rest)) :
    DecodeInv p pre team_assignment (decodeStep pre team_assignment priority st x rest) := by
  have hperm : st.ready.Perm ((prio_v, x) :: rest) := popMin_perm hpop
  have hx_mem : (prio_v, x) ∈ st.ready := hperm.mem_iff.mpr (List.mem_cons_self _ _)
  obtain ⟨tx, htx, htx_ne, htx_preds⟩ := hinv.ready_ok _ _ hx_mem
  have hx_fresh : x ∉ schedIds st := hinv.ready_fresh _ _ hx_mem
  have hx_slot0 : st.current_in_degrees.getD x 0 = 0 := hinv.pool_zero _ _ hx_mem
  have hx_lt : x < p.num_tasks :=
    (hspec.keys_range x).mp (Option.isSome_iff_exists.mpr ⟨tx, htx⟩)
  have hids_perm : (st.ready.map Prod.snd).Perm (x :: rest.map Prod.snd) := by
    simpa using hperm.map Prod.snd
  have hxrest_nodup : (x :: rest.map Prod.snd).Nodup := hids_perm.nodup hinv.ready_nodup
  have hrest_nodup : (rest.map Prod.snd).Nodup := (List.nodup_cons.mp hxrest_nodup).2
  have hx_notin_rest : x ∉ rest.map Prod.snd := (List.nodup_cons.mp hxrest_nodup).1
  have hrest_sub : ∀ pr s, (pr, s) ∈ rest → (pr, s) ∈ st.ready := fun pr s h =>
    hperm.mem_iff.mpr (List.mem_cons_of_mem _ h)
  have hsched_lookup : ∀ a ∈ schedIds st, (dictLookup p.tasks a).isSome := by
    intro a ha
    rw [schedIds, List.mem_map] at ha
    obtain ⟨b, hb, rfl⟩ := ha
    obtain ⟨t, ht, -, -⟩ := hinv.task_ok b hb
    exact Option.isSome_iff_exists.mpr ⟨t, ht⟩
  have hsuccsX : pre.successors.getD x [] = tx.successors := hspec.succs_eq x tx htx
  have hpredsX : pre.predecessors.getD x [] = tx.predecessors := hspec.preds_eq x tx htx
  have hdlen : st.current_in_degrees.length = p.num_tasks := hinv.indeg_len
  have hsuccs_range : ∀ s ∈ pre.successors.getD x [], s < st.current_in_degrees.length := by
    intro s hsm
    rw [hsuccsX] at hsm
    rw [hdlen]
    exact (hspec.keys_range s).mp (consistent_succ_isSome hcons htx hsm)
  have hslot : ∀ s (ts' : Task), dictLookup p.tasks s = some ts' →
      st.current_in_degrees.getD s 0 =
        ((ts'.predecessors.length : Int)) -
        ((ts'.predecessors.filter (fun b => (schedIds st).contains b)).length : Int) := by
    intro s ts' hs'
    have hlt : s < p.num_tasks :=
      (hspec.keys_range s).mp (Option.isSome_iff_exists.mpr ⟨ts', hs'⟩)
    rw [hinv.indeg_book s hlt, hspec.indeg_eq s ts' hs']
    congr 1
    have hms : st.assignments.map
        (fun a => ((pre.successors.getD a.task_id []).count s : Int)) =
        (schedIds st).map (fun a => ((pre.successors.getD a []).count s : Int)) := by
      rw [schedIds, List.map_map]
      rfl
    rw [hms, decSum_interp p pre hspec hcons _ hinv.nodup_sched hsched_lookup hs']
  have hcount_x : ∀ s (ts' : Task), dictLookup p.tasks s = some ts' →
      (pre.successors.getD x []).count s = ts'.predecessors.count x := by
    intro s ts' hs'
    rw [hsuccsX]
    exact consistent_count hcons htx hs'
  have hcount_zero_of_preds_sched : ∀ s (ts' : Task), dictLookup p.tasks s = some ts' →
      (∀ r ∈ ts'.predecessors, r ∈ schedIds st) →
      (pre.successors.getD x []).count s = 0 := by
    intro s ts' hs' hsub
    rw [hcount_x s ts' hs', List.count_eq_zero]
    intro hc
    exact hx_fresh (hsub x hc)
  have hnn : ∀ s, s < st.current_in_degrees.length →
      0 ≤ st.current_in_degrees.getD s 0 - ((pre.successors.getD x []).count s : Int) := by
    intro s hsl
    rw [hdlen] at hsl
    obtain ⟨ts', hs'⟩ := Option.isSome_iff_exists.mp ((hspec.keys_range s).mpr hsl)
    rw [hslot s ts' hs', hcount_x s ts' hs']
    have h1 : (ts'.predecessors.filter (fun b => (schedIds st).contains b)).length +
        ts'.predecessors.count x ≤ ts'.predecessors.length := by
      have hx_nodup : (x :: schedIds st).Nodup :=
        List.nodup_cons.mpr ⟨hx_fresh, hinv.nodup_sched⟩
      have h2 := sum_map_count (x :: schedIds st) hx_nodup ts'.predecessors
      rw [List.map_cons, List.sum_cons, sum_map_count _ hinv.nodup_sched] at h2
      have h3 := length_filter_le_general
        (fun b => (x :: schedIds st).contains b) ts'.predecessors
      omega
    omega
  obtain ⟨q, hq2, hqnodup, hqprops, hqcompl⟩ :=
    decrementSuccs_snd_spec pre priority (pre.successors.getD x [])
      st.current_in_degrees rest hsuccs_range hnn
  have hstep1_getD : ∀ s, s < p.num_tasks →
      (decrementSuccs pre priority (pre.successors.getD x [])
        (st.current_in_degrees, rest)).1.getD s 0 =
      st.current_in_degrees.getD s 0 - ((pre.successors.getD x []).count s : Int) := by
    intro s hsl
    exact decrementSuccs_fst_getD pre priority _ _ _ s (by rw [hdlen]; exact hsl)
  have hstep1_len : (decrementSuccs pre priority (pre.successors.getD x [])
      (st.current_in_degrees, rest)).1.length = p.num_tasks := by
    rw [decrementSuccs_fst_length]
    exact hdlen
  -- data about the new assignment
  have hdurX : pre.durations.getD x 0 = tx.duration := hspec.dur_eq x tx htx
  have hdurX_nonneg : 0 ≤ pre.durations.getD x 0 := by
    rw [hdurX]
    rw [nonnegDurations, List.all_eq_true] at hdur
    simpa using hdur (x, tx) (dictLookup_mem htx)
  have hj_mem : team_assignment.getD x 0 ∈ tx.compatible_teams.map Prod.fst :=
    hsol x tx htx htx_ne
  have hj_lt : team_assignment.getD x 0 < p.num_teams := by
    rw [List.mem_map] at hj_mem
    obtain ⟨tc, htc, he⟩ := hj_mem
    rw [← he]
    exact hspec.compat_range x tx htx tc htc
  obtain ⟨team_j, hteam_j⟩ :=
    Option.isSome_iff_exists.mp ((hspec.teams_range _).mpr hj_lt)
  -- the new state, zeta-expanded
  have hnew : decodeStep pre team_assignment priority st x rest =
      { team_available := st.team_available.set (team_assignment.getD x 0)
          (max (st.team_available.getD (team_assignment.getD x 0) 0)
            ((pre.predecessors.getD x []).foldl
              (fun acc r => max acc (st.task_finish_times.getD r (-1))) 0) +
           pre.durations.getD x 0)
        task_finish_times := st.task_finish_times.set x
          (max (st.team_available.getD (team_assignment.getD x 0) 0)
            ((pre.predecessors.getD x []).foldl
              (fun acc r => max acc (st.task_finish_times.getD r (-1))) 0) +
           pre.durations.getD x 0)
        current_in_degrees := (decrementSuccs pre priority (pre.successors.getD x [])
          (st.current_in_degrees, rest)).1
        ready := (decrementSuccs pre priority (pre.successors.getD x [])
          (st.current_in_degrees, rest)).2
        assignments := st.assignments ++ [⟨x, team_assignment.getD x 0,
          max (st.team_available.getD (team_assignment.getD x 0) 0)
            ((pre.predecessors.getD x []).foldl
              (fun acc r => max acc (st.task_finish_times.getD r (-1))) 0)⟩] } := rfl
  rw [hnew]
  set j := team_assignment.getD x 0 with hjdef
  set preds_complete := (pre.predecessors.getD x []).foldl
    (fun acc r => max acc (st.task_finish_times.getD r (-1))) 0 with hpcdef
  set start := max (st.team_available.getD j 0) preds_complete with hstartdef
  set durX := pre.durations.getD x 0 with hdurdef
  set ax : Assignment := ⟨x, j, start⟩ with haxdef
  set d1 := (decrementSuccs pre priority (pre.successors.getD x [])
    (st.current_in_degrees, rest)).1 with hd1def
  -- facts about start
  have hstart_ge_avail : st.team_available.getD j 0 ≤ start := le_max_left _ _
  have hstart_ge_pc : preds_complete ≤ start := le_max_right _ _
  have hpc_ge : ∀ r ∈ pre.predecessors.getD x [],
      st.task_finish_times.getD r (-1) ≤ preds_complete :=
    fun r hr => foldl_max_ge_mem (fun r => st.task_finish_times.getD r (-1)) _ 0 r hr
  have hsched_new : ∀ (tl : List Int) (rd : List (Nat × Nat)) (d2 : List Int),
      schedIds { team_available := tl
                 task_finish_times := d2
                 current_in_degrees := d1
                 ready := rd
                 assignments := st.assignments ++ [ax] } = schedIds st ++ [x] := by
    intro tl rd d2
    rw [schedIds, schedIds, List.map_append]
    rfl
  -- new-slot characterization
  have hslot_new : ∀ s, s < p.num_tasks → d1.getD s 0 =
      st.current_in_degrees.getD s 0 - ((pre.successors.getD x []).count s : Int) :=
    hstep1_getD
  have hq_ids_props : ∀ s ∈ q.map Prod.snd, ∃ pr, (pr, s) ∈ q := by
    intro s hs
    rw [List.mem_map] at hs
    obtain ⟨⟨pr, s'⟩, hm, he⟩ := hs
    dsimp only at he
    subst he
    exact ⟨pr, hm⟩
  constructor
  case nodup_sched =>
    rw [hsched_new]
    rw [List.nodup_append]
    exact ⟨hinv.nodup_sched, List.nodup_singleton x,
      fun a ha hb => hx_fresh (by rwa [List.mem_singleton.mp hb] at ha)⟩
  case task_ok =>
    intro a ha
    rcases List.mem_append.mp ha with h | h
    · exact hinv.task_ok a h
    · rw [List.mem_singleton] at h
      subst h
      exact ⟨tx, htx, rfl, hj_mem⟩
  case avail_ok =>
    intro a ha
    rcases List.mem_append.mp ha with h | h
    · exact hinv.avail_ok a h
    · rw [List.mem_singleton] at h
      subst h
      exact ⟨team_j, hteam_j,
        le_trans (hinv.team_avail_lb j team_j hteam_j) hstart_ge_avail⟩
  case fin_sched =>
    intro a ha
    rcases List.mem_append.mp ha with h | h
    · have hne : a.task_id ≠ x := by
        intro he
        exact hx_fresh (he ▸ List.mem_map.mpr ⟨a, h, rfl⟩)
      show (st.task_finish_times.set x (start + durX)).getD a.task_id (-1) = _
      rw [getD_set_ne _ _ _ _ _ (fun he => hne he.symm)]
      exact hinv.fin_sched a h
    · rw [List.mem_singleton] at h
      subst h
      show (st.task_finish_times.set x (start + durX)).getD x (-1) = start + durOf pre x
      rw [getD_set_self _ _ _ _ (by rw [hinv.fin_len]; exact hx_lt)]
      rfl
  case prec_ok =>
    intro a ha r hr
    rcases List.mem_append.mp ha with h | h
    · obtain ⟨h1, h2⟩ := hinv.prec_ok a h r hr
      have hrne : r ≠ x := by
        intro he
        exact hx_fresh (he ▸ h1)
      constructor
      · rw [hsched_new]
        exact List.mem_append.mpr (Or.inl h1)
      · show (st.task_finish_times.set x (start + durX)).getD r (-1) ≤ _
        rw [getD_set_ne _ _ _ _ _ (fun he => hrne he.symm)]
        exact h2
    · rw [List.mem_singleton] at h
      subst h
      have hrs : r ∈ tx.predecessors := by rwa [hpredsX] at hr
      have h1 : r ∈ schedIds st := htx_preds r hrs
      have hrne : r ≠ x := by
        intro he
        exact hx_fresh (he ▸ h1)
      constructor
      · rw [hsched_new]
        exact List.mem_append.mpr (Or.inl h1)
      · show (st.task_finish_times.set x (start + durX)).getD r (-1) ≤ ax.start_time
        rw [getD_set_ne _ _ _ _ _ (fun he => hrne he.symm)]
        exact le_trans (hpc_ge r hr) hstart_ge_pc
  case team_avail_lb =>
    intro j' team' hteam'
    have h1 : team'.available_from ≤ st.team_available.getD j' 0 :=
      hinv.team_avail_lb j' team' hteam'
    by_cases hje : j' = j
    · show team'.available_from ≤ (st.team_available.set j (start + durX)).getD j' 0
      rw [hje] at h1 ⊢
      rw [getD_set_self _ _ _ _ (by rw [hinv.avail_len]; exact hj_lt)]
      have h2 := hstart_ge_avail
      omega
    · show team'.available_from ≤ (st.team_available.set j (start + durX)).getD j' 0
      rw [getD_set_ne _ _ _ _ _ (fun he => hje he.symm)]
      exact h1
  case team_fin_ub =>
    intro a ha
    rcases List.mem_append.mp ha with h | h
    · by_cases hje : a.team_id = j
      · show a.start_time + durOf pre a.task_id ≤
          (st.team_available.set j (start + durX)).getD a.team_id 0
        rw [hje, getD_set_self _ _ _ _ (by rw [hinv.avail_len]; exact hj_lt)]
        have h1 := hinv.team_fin_ub a h
        rw [hje] at h1
        have h2 := hstart_ge_avail
        omega
      · show a.start_time + durOf pre a.task_id ≤
          (st.team_available.set j (start + durX)).getD a.team_id 0
        rw [getD_set_ne _ _ _ _ _ (fun he => hje he.symm)]
        exact hinv.team_fin_ub a h
    · rw [List.mem_singleton] at h
      subst h
      show ax.start_time + durOf pre ax.task_id ≤
        (st.team_available.set j (start + durX)).getD ax.team_id 0
      have : ax.team_id = j := rfl
      rw [this, getD_set_self _ _ _ _ (by rw [hinv.avail_len]; exact hj_lt)]
      exact le_refl _
  case team_pairwise =>
    rw [List.pairwise_append]
    refine ⟨hinv.team_pairwise, List.pairwise_singleton _ _, ?_⟩
    intro a ha b hb hteam
    rw [List.mem_singleton] at hb
    subst hb
    have h1 := hinv.team_fin_ub a ha
    rw [hteam] at h1
    exact le_trans h1 hstart_ge_avail
  case ready_nodup =>
    show ((decrementSuccs pre priority (pre.successors.getD x [])
      (st.current_in_degrees, rest)).2.map Prod.snd).Nodup
    rw [hq2, List.map_append, List.nodup_append]
    refine ⟨hrest_nodup, hqnodup, ?_⟩
    intro s hs hs'
    obtain ⟨pr, hpr⟩ := hq_ids_props s hs'
    obtain ⟨-, -, -, -, hpos⟩ := hqprops pr s hpr
    rw [List.mem_map] at hs
    obtain ⟨⟨pr2, s2⟩, hm2, he2⟩ := hs
    dsimp only at he2
    have hz := hinv.pool_zero pr2 s2 (hrest_sub pr2 s2 hm2)
    rw [he2] at hz
    omega
  case ready_fresh =>
    intro pr s hs
    show s ∉ schedIds _
    rw [hsched_new]
    dsimp only at hs
    rw [hq2] at hs
    intro hcontra
    rcases List.mem_append.mp hcontra with hc | hc
    · rcases List.mem_append.mp hs with hm | hm
      · exact hinv.ready_fresh pr s (hrest_sub pr s hm) hc
      · obtain ⟨-, -, -, -, hpos⟩ := hqprops pr s hm
        rw [schedIds, List.mem_map] at hc
        obtain ⟨b, hb, he⟩ := hc
        have := hinv.sched_zero b hb
        rw [he] at this
        omega
    · rw [List.mem_singleton] at hc
      rcases List.mem_append.mp hs with hm | hm
      · rw [hc] at hm
        exact hx_notin_rest (List.mem_map.mpr ⟨(pr, x), hm, rfl⟩)
      · obtain ⟨-, -, -, -, hpos⟩ := hqprops pr s hm
        rw [hc] at hpos
        omega
  case ready_ok =>
    intro pr s hs
    dsimp only at hs
    rw [hq2] at hs
    rcases List.mem_append.mp hs with hm | hm
    · obtain ⟨ts', hts', hne', hsub'⟩ := hinv.ready_ok pr s (hrest_sub pr s hm)
      refine ⟨ts', hts', hne', ?_⟩
      intro r hr
      rw [hsched_new]
      exact List.mem_append.mpr (Or.inl (hsub' r hr))
    · obtain ⟨-, hsm, hcf, hcount, hpos⟩ := hqprops pr s hm
      have hsome : (dictLookup p.tasks s).isSome := by
        rw [hsuccsX] at hsm
        exact consistent_succ_isSome hcons htx hsm
      obtain ⟨ts', hts'⟩ := Option.isSome_iff_exists.mp hsome
      have hts_ne : ts'.compatible_teams ≠ [] := by
        intro hnil
        have := hspec.compat_eq s ts' hts'
        rw [hnil] at this
        rw [List.map_nil] at this
        rw [this] at hcf
        simp at hcf
      refine ⟨ts', hts', hts_ne, ?_⟩
      -- all predecessors of s are scheduled after adding x
      have hfull : (ts'.predecessors.filter
          (fun b => (schedIds st ++ [x]).contains b)).length =
          ts'.predecessors.length := by
        have hx_nodup : (schedIds st ++ [x]).Nodup := by
          rw [List.nodup_append]
          exact ⟨hinv.nodup_sched, List.nodup_singleton x,
            fun a ha hb => hx_fresh (by rwa [List.mem_singleton.mp hb] at ha)⟩
        have hA := sum_map_count (schedIds st ++ [x]) hx_nodup ts'.predecessors
        rw [List.map_append, List.sum_append, sum_map_count _ hinv.nodup_sched] at hA
        have hslot_s := hslot s ts' hts'
        have hcx := hcount_x s ts' hts'
        have hle := length_filter_le_general
          (fun b => (schedIds st ++ [x]).contains b) ts'.predecessors
        simp only [List.map_cons, List.map_nil, List.sum_cons, List.sum_nil] at hA
        omega
      intro r hr
      rw [hsched_new]
      have := (filter_length_eq_iff _ _).mp hfull r hr
      exact List.elem_iff.mp this
  case indeg_book =>
    intro s hsl
    show d1.getD s 0 = _
    rw [hslot_new s hsl]
    have hbook := hinv.indeg_book s hsl
    rw [List.map_append, List.sum_append]
    simp only [List.map_cons, List.map_nil, List.sum_cons, List.sum_nil]
    rw [hbook]
    have : (pre.successors.getD ax.task_id []).count s =
        (pre.successors.getD x []).count s := rfl
    rw [this]
    ring
  case indeg_len =>
    exact hstep1_len
  case fin_len =>
    show (st.task_finish_times.set x (start + durX)).length = p.num_tasks
    rw [List.length_set]
    exact hinv.fin_len
  case avail_len =>
    show (st.team_available.set j (start + durX)).length = p.num_teams
    rw [List.length_set]
    exact hinv.avail_len
  case pool_zero =>
    intro pr s hs
    dsimp only at hs
    rw [hq2] at hs
    rcases List.mem_append.mp hs with hm | hm
    · obtain ⟨ts', hts', -, hsub'⟩ := hinv.ready_ok pr s (hrest_sub pr s hm)
      have hlt : s < p.num_tasks :=
        (hspec.keys_range s).mp (Option.isSome_iff_exists.mpr ⟨ts', hts'⟩)
      show d1.getD s 0 = 0
      rw [hslot_new s hlt, hinv.pool_zero pr s (hrest_sub pr s hm),
        hcount_zero_of_preds_sched s ts' hts' hsub']
      ring
    · obtain ⟨-, hsm, -, hcount, -⟩ := hqprops pr s hm
      have hlt : s < p.num_tasks := by
        have := hsuccs_range s hsm
        rwa [hdlen] at this
      show d1.getD s 0 = 0
      rw [hslot_new s hlt, hcount]
      ring
  case sched_zero =>
    intro a ha
    rcases List.mem_append.mp ha with h | h
    · obtain ⟨ta, hta, -, -⟩ := hinv.task_ok a h
      have hlt : a.task_id < p.num_tasks :=
        (hspec.keys_range _).mp (Option.isSome_iff_exists.mpr ⟨ta, hta⟩)
      show d1.getD a.task_id 0 = 0
      rw [hslot_new _ hlt, hinv.sched_zero a h,
        hcount_zero_of_preds_sched a.task_id ta hta ?_]
      · ring
      · intro r hr
        have := hinv.prec_ok a h r (by rw [hspec.preds_eq _ ta hta]; exact hr)
        exact this.1
    · rw [List.mem_singleton] at h
      subst h
      show d1.getD ax.task_id 0 = 0
      have hax_id : ax.task_id = x := rfl
      rw [hax_id, hslot_new x hx_lt, hx_slot0,
        hcount_zero_of_preds_sched x tx htx htx_preds]
      ring
  case zero_in_pool =>
    intro s ts' hts' hne' hzero
    have hlt : s < p.num_tasks :=
      (hspec.keys_range s).mp (Option.isSome_iff_exists.mpr ⟨ts', hts'⟩)
    dsimp only at hzero
    rw [hslot_new s hlt] at hzero
    by_cases hold : st.current_in_degrees.getD s 0 = 0
    · rcases hinv.zero_in_pool s ts' hts' hne' hold with hc | hc
      · left
        rw [hsched_new]
        exact List.mem_append.mpr (Or.inl hc)
      · have : s ∈ x :: rest.map Prod.snd := hids_perm.mem_iff.mp hc
        rcases List.mem_cons.mp this with he | hmem
        · left
          rw [hsched_new, he]
          exact List.mem_append.mpr (Or.inr (List.mem_singleton.mpr rfl))
        · right
          show s ∈ ((decrementSuccs pre priority (pre.successors.getD x [])
            (st.current_in_degrees, rest)).2.map Prod.snd)
          rw [hq2, List.map_append]
          exact List.mem_append.mpr (Or.inl hmem)
    · right
      have hpos : 0 < st.current_in_degrees.getD s 0 := by
        have := hnn s (by rw [hdlen]; exact hlt)
        omega
      have hcount : st.current_in_degrees.getD s 0 =
          ((pre.successors.getD x []).count s : Int) := by omega
      have hcf : (pre.compatible_teams_indices.getD s []).isEmpty = false := by
        rw [hspec.compat_eq s ts' hts']
        rcases h : ts'.compatible_teams with - | ⟨tc0, tcs⟩
        · exact absurd h hne'
        · rfl
      have hmem := hqcompl s (by rw [hdlen]; exact hlt) hcf hcount hpos
      show s ∈ ((decrementSuccs pre priority (pre.successors.getD x [])
        (st.current_in_degrees, rest)).2.map Prod.snd)
      rw [hq2, List.map_append]
      exact List.mem_append.mpr (Or.inr (List.mem_map.mpr ⟨(priority.getD s 0, s), hmem, rfl⟩))

/-! ### Characterization of `_preprocess` -/

theorem preprocess_spec (p : ProblemInstance) (pre : PreArrays)
    (hwf_t : dictWF p.tasks) (hwf_m : dictWF p.teams)
    (hpre : TabuSearch.preprocess p = .ok pre) : PreSpec p pre := by
  unfold TabuSearch.preprocess at hpre
  rcases hassert : p.assert_continuous_indices with e | u
  · rw [hassert] at hpre
    cases hpre
  · rw [hassert] at hpre
    obtain ⟨⟩ := u
    have hcont : continuousOk p := (assert_continuous_indices_ok_iff p).mp hassert
    have hkeys : ∀ i, i ∈ dictKeys p.tasks ↔ i < p.num_tasks :=
      (setEqRange_iff _ _).mp hcont.1
    have hteams : ∀ i, i ∈ dictKeys p.teams ↔ i < p.num_teams :=
      (setEqRange_iff _ _).mp hcont.2
    dsimp only at hpre
    by_cases hguard :
        (p.tasks.all fun kv => kv.2.compatible_teams.all fun tc => decide (tc.1 < p.num_teams))
          = true
    case neg =>
      rw [if_neg hguard] at hpre
      cases hpre
    case pos =>
      rw [if_pos hguard] at hpre
      rw [Except.ok.injEq] at hpre
      subst hpre
      have keys_range : ∀ tid, (dictLookup p.tasks tid).isSome ↔ tid < p.num_tasks := by
        intro tid
        rw [dictLookup_isSome_iff]
        exact hkeys tid
      have teams_range : ∀ j, (dictLookup p.teams j).isSome ↔ j < p.num_teams := by
        intro j
        rw [dictLookup_isSome_iff]
        exact hteams j
      have harr : ∀ {β : Type} (f : Nat × Task → β) (dflt : β) (tid : Nat) (t : Task),
          dictLookup p.tasks tid = some t →
          (p.tasks.foldl (fun arr kv => arr.set kv.1 (f kv)) (List.replicate p.num_tasks dflt)).getD tid dflt = f (tid, t) := by
        intro β f dflt tid t hl
        refine foldl_set_getD_mem f hwf_t _ dflt (dictLookup_mem hl) ?_
        rw [List.length_replicate]
        exact (keys_range tid).mp (Option.isSome_iff_exists.mpr ⟨t, hl⟩)
      refine
        { num_tasks_eq := rfl
          num_teams_eq := rfl
          dur_eq := fun tid t hl => harr (fun kv => kv.2.duration) 0 tid t hl
          preds_eq := fun tid t hl => harr (fun kv => kv.2.predecessors) [] tid t hl
          succs_eq := fun tid t hl => harr (fun kv => kv.2.successors) [] tid t hl
          indeg_eq := fun tid t hl =>
            harr (fun kv => (kv.2.predecessors.length : Int)) 0 tid t hl
          compat_eq := fun tid t hl =>
            harr (fun kv => kv.2.compatible_teams.map Prod.fst) [] tid t hl
          compat_empty := ?_
          avail_eq := ?_
          twt_eq := rfl
          avail_len := ?_
          indeg_len := ?_
          keys_range := keys_range
          teams_range := teams_range
          compat_range := ?_ }
      · intro tid hnone
        have hno : tid ∉ dictKeys p.tasks := by
          intro hc
          rw [← dictLookup_isSome_iff] at hc
          rw [Option.isNone_iff_eq_none] at hnone
          rw [hnone] at hc
          cases hc
        rw [foldl_set_getD_not_mem _ _ _ _ _ hno]
        exact getD_replicate _ _ _
      · intro j team hl
        refine foldl_set_getD_mem (fun kv => kv.2.available_from) hwf_m _ 0
          (dictLookup_mem hl) ?_
        rw [List.length_replicate]
        exact (teams_range j).mp (Option.isSome_iff_exists.mpr ⟨team, hl⟩)
      · rw [foldl_set_length]
        exact List.length_replicate _ _
      · rw [foldl_set_length]
        exact List.length_replicate _ _
      · intro tid t hl tc htc
        have := dictLookup_mem hl
        rw [List.all_eq_true] at hguard
        have h2 := hguard (tid, t) this
        rw [List.all_eq_true] at h2
        simpa using h2 tc htc

/-- The index-finding fold inside `to_continuous`: for `x ∈ s` it returns
some position of `x` in `s`. -/
theorem foldl_enum_find_spec (s : List Nat) (x : Nat) (hx : x ∈ s) :
    ∃ i, i < s.length ∧
      s.enum.foldl (fun acc p => if p.2 = x then some p.1 else acc) none = some i ∧
      s[i]? = some x := by
  induction s using List.reverseRecOn with
  | nil => cases hx
  | append_singleton s₀ a ih =>
    rw [List.enum_append, List.foldl_append]
    by_cases hax : a = x
    · refine ⟨s₀.length, by simp, ?_, ?_⟩
      · simp only [List.enumFrom, List.foldl_cons, List.foldl_nil]
        rw [if_pos hax]
      · rw [hax]
        exact List.getElem?_concat_length s₀ x
    · have hx0 : x ∈ s₀ := by
        rcases List.mem_append.mp hx with h | h
        · exact h
        · rw [List.mem_singleton] at h
          exact absurd h.symm hax
      obtain ⟨i, hi, hfold, hget⟩ := ih hx0
      refine ⟨i, by simp; omega, ?_, ?_⟩
      · simp only [List.enumFrom, List.foldl_cons, List.foldl_nil]
        rw [if_neg hax, hfold]
      · rw [List.getElem?_append_left hi]
        exact hget

/-- In a `Nodup` list, positions holding the same value coincide. -/
theorem nodup_getElem?_inj (s : List Nat) (hs : s.Nodup) {i j x : Nat}
    (hi : s[i]? = some x) (hj : s[j]? = some x) : i = j := by
  have hi' : i < s.length := by
    by_contra hc
    rw [List.getElem?_eq_none (by omega)] at hi
    cases hi
  have hj' : j < s.length := by
    by_contra hc
    rw [List.getElem?_eq_none (by omega)] at hj
    cases hj
  rw [List.getElem?_eq_getElem hi'] at hi
  rw [List.getElem?_eq_getElem hj'] at hj
  have : s[i] = s[j] := by
    rw [Option.some_inj.mp hi, Option.some_inj.mp hj]
  exact (hs.getElem_inj_iff).mp this

/-- Under `Nodup`, `to_continuous l` maps the elements of `l` onto exactly
the positions `0, …, l.length - 1`. -/
theorem mem_map_to_continuous_iff (l : List Nat) (hl : l.Nodup) (i : Nat) :
    i ∈ l.map (to_continuous l) ↔ i < l.length := by
  have hperm : (sortedIds l).Perm l := List.perm_insertionSort _ l
  have hs : (sortedIds l).Nodup := hperm.symm.nodup hl
  have hlen : (sortedIds l).length = l.length := hperm.length_eq
  constructor
  · intro hmem
    rw [List.mem_map] at hmem
    obtain ⟨x, hx, hval⟩ := hmem
    have hxs : x ∈ sortedIds l := hperm.mem_iff.mpr hx
    obtain ⟨i₀, hi₀, hfold, -⟩ := foldl_enum_find_spec (sortedIds l) x hxs
    rw [to_continuous] at hval
    rw [hfold] at hval
    simp only [Option.getD_some] at hval
    omega
  · intro hi
    have hi' : i < (sortedIds l).length := by omega
    obtain ⟨i₁, hi₁, hfold, hget⟩ :=
      foldl_enum_find_spec (sortedIds l) ((sortedIds l).get ⟨i, hi'⟩)
        (List.get_mem _ _ _)
    have hii : i₁ = i := by
      refine nodup_getElem?_inj _ hs hget ?_
    -- s[i]? = some (s.get ⟨i, hi'⟩)
      rw [List.getElem?_eq_getElem hi']
      rfl
    rw [List.mem_map]
    refine ⟨(sortedIds l).get ⟨i, hi'⟩, hperm.mem_iff.mp (List.get_mem _ _ _), ?_⟩
    rw [to_continuous]
    rw [hfold]
    simp only [Option.getD_some]
    exact hii

/-- C4 counterexample: for the instance with declared `num_teams = 2` but a
single team, the relabeled instance that `ContinuousIndexer` hands to the
wrapped next stage keeps `num_teams = 2` (continuous_indexer.py line 75)
while its team ids become `{0}`, so `assert_continuous_indices` on it
raises. -/
theorem continuousIndexer_relabel_not_continuous :
    ¬ continuousOk (ContinuousIndexer.relabel exBadTeamCount) := by decide

/-- C4 (amended): for every ProblemInstance with unique task keys whose team
records carry pairwise-distinct ids and whose declared `num_teams` equals
its actual number of teams, the relabeled ProblemInstance that
`ContinuousIndexer` passes to the wrapped next stage satisfies the
continuous-index invariant: task ids are exactly `{0,…,num_tasks-1}` and
team ids exactly `{0,…,num_teams-1}` for its declared cardinalities, so
`assert_continuous_indices` on it does not raise. -/
theorem continuousIndexer_relabel_continuous (p : ProblemInstance)
    (htasks : dictWF p.tasks)
    (hteams : (p.teams.map (fun kv => kv.2.id)).Nodup)
    (hcount : p.teams.length = p.num_teams) :
    continuousOk (ContinuousIndexer.relabel p) := by
  constructor
  · rw [setEqRange_iff]
    intro i
    show i ∈ dictKeys (ContinuousIndexer.relabel p).tasks ↔ _
    have hkeys : dictKeys (ContinuousIndexer.relabel p).tasks =
        (dictKeys p.tasks).map (to_continuous (dictKeys p.tasks)) := by
      unfold ContinuousIndexer.relabel dictKeys
      simp only [List.map_map]
      rfl
    have hnum : (ContinuousIndexer.relabel p).num_tasks = (dictKeys p.tasks).length := by
      unfold ContinuousIndexer.relabel dictKeys
      simp [List.length_map]
    rw [hkeys, hnum]
    exact mem_map_to_continuous_iff (dictKeys p.tasks) htasks i
  · rw [setEqRange_iff]
    intro i
    show i ∈ dictKeys (ContinuousIndexer.relabel p).teams ↔ _
    have hkeys : dictKeys (ContinuousIndexer.relabel p).teams =
        (p.teams.map (fun kv => kv.2.id)).map
          (to_continuous (p.teams.map (fun kv => kv.2.id))) := by
      unfold ContinuousIndexer.relabel dictKeys
      simp only [List.map_map]
      rfl
    have hnum : (ContinuousIndexer.relabel p).num_teams =
        (p.teams.map (fun kv => kv.2.id)).length := by
      unfold ContinuousIndexer.relabel
      simp only [List.length_map]
      omega
    rw [hkeys, hnum]
    exact mem_map_to_continuous_iff (p.teams.map (fun kv => kv.2.id)) hteams i

theorem continuousIndexer_relabel_continuous_witness :
    dictWF exSparseInstance.tasks ∧
      (exSparseInstance.teams.map (fun kv => kv.2.id)).Nodup ∧
      exSparseInstance.teams.length = exSparseInstance.num_teams ∧
      continuousOk (ContinuousIndexer.relabel exSparseInstance) :=
  ⟨by decide, by decide, by decide,
    continuousIndexer_relabel_continuous exSparseInstance (by decide) (by decide) (by decide)⟩

/-- C1 (divergence witness): on a ProblemInstance with continuous indices
and schedulable tasks, `map_result` raises `TypeError` at
`with TimeBudget(time_limit) as budget:` (tabu_search.py line 255), because
`TimeBudget` (time_budget.py lines 5-24) defines no `__enter__`/`__exit__`;
it neither runs the search loop nor returns a schedule, for any time limit. -/
theorem tabu_map_result_raises_typeError :
    TabuSearchMiddleware.map_result {} defaultOracle (fun _ => false) 1000
        exTabuInstance { assignments := [] } =
      .error (.typeError "TimeBudget object does not support the context manager protocol") :=
  rfl

/-- C7: `_decode` is deterministic: on the same preprocessed problem, two
Solutions with identical `task_order` and `team_assignment` (regardless of
their cached `fitness` fields) decode to identical assignment lists — same
tasks, teams and start times in the same order. -/
theorem tabu_decode_deterministic (pre : PreArrays) (s1 s2 : Solution)
    (ho : s1.task_order = s2.task_order) (ha : s1.team_assignment = s2.team_assignment) :
    TabuSearch.decode pre s1 = TabuSearch.decode pre s2 := by
  unfold TabuSearch.decode
  rw [ho, ha]

theorem tabu_decode_deterministic_witness :
    (({ task_order := [1, 0], team_assignment := [0, 0] } : Solution).task_order =
        ({ task_order := [1, 0], team_assignment := [0, 0],
           fitness := some (-2, 10, 5) } : Solution).task_order) ∧
      (({ task_order := [1, 0], team_assignment := [0, 0] } : Solution).team_assignment =
        ({ task_order := [1, 0], team_assignment := [0, 0],
           fitness := some (-2, 10, 5) } : Solution).team_assignment) ∧
      TabuSearch.decode exTabuPre { task_order := [1, 0], team_assignment := [0, 0] } =
        TabuSearch.decode exTabuPre
          { task_order := [1, 0], team_assignment := [0, 0], fitness := some (-2, 10, 5) } :=
  ⟨rfl, rfl,
    tabu_decode_deterministic exTabuPre
      { task_order := [1, 0], team_assignment := [0, 0] }
      { task_order := [1, 0], team_assignment := [0, 0], fitness := some (-2, 10, 5) }
      rfl rfl⟩

/-- C8: across one outer iteration of the Tabu Search loop — whatever the
problem arrays, random oracle, budget stream and incoming state — the
tracked global-best fitness (the lexicographic triple
`(-scheduled-task-count, makespan, total_cost)`) never increases: the
resulting state's `best_score` is lexicographically ≤ the incoming one. -/
theorem acceptNeighbor_best_monotone (P : TabuParams) (st : TabuState)
    (neighbor : Solution) (move : Move) (score : Fit) :
    fitLe (TabuSearch.acceptNeighbor P st neighbor move score).best_score st.best_score := by
  unfold TabuSearch.acceptNeighbor
  dsimp only
  simp only [apply_ite TabuState.best_score, ite_self]
  split <;> first
    | exact Or.inl (by assumption)
    | exact Or.inr rfl

theorem tabu_best_score_monotone (P : TabuParams) (pre : PreArrays) (oracle : TabuOracle)
    (expired : Nat → Bool) (st : TabuState) :
    fitLe (TabuSearch.outerStep P pre oracle expired st).state.best_score st.best_score := by
  unfold TabuSearch.outerStep
  split
  · exact Or.inr rfl
  · dsimp only
    split
    · exact Or.inr rfl
    · split
      · exact Or.inr rfl
      · exact acceptNeighbor_best_monotone P _ _ _ _

theorem pipeline_budget_allocation_witness :
    (0 : ℚ) < ([1, 2] : List ℚ).sum + 2 ∧
      pipelineBudgets [1, 2] 2 10 =
        (([1, 2] : List ℚ) ++ [2]).map (fun f => 10 * f / (([1, 2] : List ℚ).sum + 2)) :=
  ⟨by norm_num, pipeline_budget_allocation.2 [1, 2] 2 10 (by norm_num)⟩

/-! ### The checker accepts any conflict-free assignment list -/

theorem foldl_id_of_step {α β : Type} (f : β → α → β) (l : List α)
    (h : ∀ b a, a ∈ l → f b a = b) : ∀ init, l.foldl f init = init := by
  induction l with
  | nil => intro init; rfl
  | cons x tl ih =>
    intro init
    rw [List.foldl_cons, h init x (List.mem_cons_self x tl)]
    exact ih (fun b a ha => h b a (List.mem_cons_of_mem x ha)) init

theorem dictContains_append {α : Type} (d1 d2 : List (Nat × α)) (k : Nat) :
    dictContains (d1 ++ d2) k = (dictContains d1 k || dictContains d2 k) := by
  induction d1 with
  | nil => simp [dictContains, dictLookup, List.lookup]
  | cons kv d ih =>
    obtain ⟨k1, v⟩ := kv
    cases h : (k == k1) with
    | true => simp [dictContains, dictLookup, List.lookup, h]
    | false => simpa [dictContains, dictLookup, List.lookup, h] using ih

theorem dictContains_singleton {α : Type} (k1 : Nat) (v : α) (k : Nat) :
    dictContains [(k1, v)] k = (k == k1) := by
  cases h : (k == k1) <;> simp [dictContains, dictLookup, List.lookup, h]

theorem checkAssignment_good (p : ProblemInstance) (st : CheckState) (a : Assignment)
    (t : Task) (team : Team)
    (ht : dictLookup p.tasks a.task_id = some t)
    (hteam : dictLookup p.teams a.team_id = some team)
    (hcompat : dictContains t.compatible_teams a.team_id = true)
    (havail : team.available_from ≤ a.start_time)
    (hfresh : dictContains st.scheduled_tasks a.task_id = false) :
    checkAssignment p st a =
      { errors := st.errors
        scheduled_tasks := st.scheduled_tasks ++ [(a.task_id, a)]
        team_schedules := appendTeamSchedule st.team_schedules a.team_id a } := by
  unfold checkAssignment
  rw [ht, hteam, hfresh]
  simp only [Bool.false_eq_true, if_false, if_true]
  rw [if_pos hcompat, if_neg (not_lt.mpr havail)]

theorem checkFold_good (p : ProblemInstance) :
    ∀ (A : List Assignment) (st : CheckState),
    (∀ a ∈ A, ∃ t team, dictLookup p.tasks a.task_id = some t ∧
      dictLookup p.teams a.team_id = some team ∧
      dictContains t.compatible_teams a.team_id = true ∧
      team.available_from ≤ a.start_time) →
    (A.map (fun a => a.task_id)).Nodup →
    (∀ a ∈ A, dictContains st.scheduled_tasks a.task_id = false) →
    A.foldl (checkAssignment p) st =
      { errors := st.errors
        scheduled_tasks := st.scheduled_tasks ++ A.map (fun a => (a.task_id, a))
        team_schedules := A.foldl (fun d a => appendTeamSchedule d a.team_id a)
          st.team_schedules } := by
  intro A
  induction A with
  | nil => intro st hgood hnodup hfresh; simp
  | cons a A' ih =>
    intro st hgood hnodup hfresh
    obtain ⟨t, team, ht, hteam, hcompat, havail⟩ := hgood a (List.mem_cons_self _ _)
    rw [List.map_cons, List.nodup_cons] at hnodup
    rw [List.foldl_cons,
      checkAssignment_good p st a t team ht hteam hcompat havail
        (hfresh a (List.mem_cons_self _ _))]
    rw [ih _ (fun b hb => hgood b (List.mem_cons_of_mem a hb)) hnodup.2 ?_]
    · simp [List.foldl_cons, List.append_assoc]
    · intro b hb
      dsimp only
      rw [dictContains_append, hfresh b (List.mem_cons_of_mem a hb),
        dictContains_singleton, Bool.false_or]
      rw [beq_eq_false_iff_ne]
      intro he
      exact hnodup.1 (he ▸ List.mem_map.mpr ⟨b, hb, rfl⟩)

theorem appendTeamSchedule_mem {d : List (Nat × List Assignment)} {k : Nat} {a : Assignment}
    {jl : Nat × List Assignment} (h : jl ∈ appendTeamSchedule d k a) :
    (∃ kv ∈ d, kv.1 ≠ k ∧ jl = kv) ∨
    (∃ kv ∈ d, kv.1 = k ∧ jl = (kv.1, kv.2 ++ [a])) ∨
    jl = (k, [a]) := by
  unfold appendTeamSchedule at h
  by_cases hc : dictContains d k
  · rw [if_pos hc] at h
    rw [List.mem_map] at h
    obtain ⟨kv, hkv, he⟩ := h
    by_cases hk : kv.1 = k
    · right; left
      exact ⟨kv, hkv, hk, by rw [← he, if_pos hk]⟩
    · left
      exact ⟨kv, hkv, hk, by rw [← he, if_neg hk]⟩
  · rw [if_neg hc] at h
    rcases List.mem_append.mp h with h1 | h1
    · left
      refine ⟨jl, h1, ?_, rfl⟩
      intro hk
      exact hc ((dictLookup_isSome_iff d k).mpr (List.mem_map.mpr ⟨jl, h1, hk⟩))
    · right; right
      exact List.mem_singleton.mp h1

theorem teamSchedules_fold (U : List Assignment) (R : Assignment → Assignment → Prop) :
    ∀ (A : List Assignment) (d : List (Nat × List Assignment)),
    (∀ a ∈ A, a ∈ U) →
    A.Pairwise (fun a b => a.team_id = b.team_id → R a b) →
    (∀ jl ∈ d, ∀ x ∈ jl.2, ∀ a ∈ A, x.team_id = a.team_id → R x a) →
    (∀ jl ∈ d, jl.2.Pairwise R ∧ ∀ b ∈ jl.2, b.team_id = jl.1 ∧ b ∈ U) →
    ∀ jl ∈ A.foldl (fun d a => appendTeamSchedule d a.team_id a) d,
      jl.2.Pairwise R ∧ ∀ b ∈ jl.2, b.team_id = jl.1 ∧ b ∈ U := by
  intro A
  induction A with
  | nil => intro d hU hAR hcross hd; exact hd
  | cons a A' ih =>
    intro d hU hAR hcross hd
    rw [List.foldl_cons]
    apply ih
    · intro b hb
      exact hU b (List.mem_cons_of_mem a hb)
    · exact (List.pairwise_cons.mp hAR).2
    · intro jl hjl x hx a' ha' hteam
      rcases appendTeamSchedule_mem hjl with ⟨kv, hkv, -, he⟩ | ⟨kv, hkv, hk, he⟩ | he
      · subst he
        exact hcross jl hkv x hx a' (List.mem_cons_of_mem a ha') hteam
      · subst he
        dsimp only at hx
        rcases List.mem_append.mp hx with hx1 | hx1
        · exact hcross kv hkv x hx1 a' (List.mem_cons_of_mem a ha') hteam
        · rw [List.mem_singleton] at hx1
          subst hx1
          exact (List.pairwise_cons.mp hAR).1 a' ha' hteam
      · subst he
        dsimp only at hx
        rw [List.mem_singleton] at hx
        subst hx
        exact (List.pairwise_cons.mp hAR).1 a' ha' hteam
    · intro jl hjl
      rcases appendTeamSchedule_mem hjl with ⟨kv, hkv, -, he⟩ | ⟨kv, hkv, hk, he⟩ | he
      · subst he
        exact hd jl hkv
      · subst he
        obtain ⟨hpw, hmem⟩ := hd kv hkv
        constructor
        · rw [List.pairwise_append]
          refine ⟨hpw, List.pairwise_singleton R a, ?_⟩
          intro x hx b hb
          rw [List.mem_singleton] at hb
          rw [hb]
          exact hcross kv hkv x hx a (List.mem_cons_self a A') ((hmem x hx).1.trans hk)
        · intro b hb
          dsimp only at hb ⊢
          rcases List.mem_append.mp hb with hb1 | hb1
          · exact hmem b hb1
          · rw [List.mem_singleton] at hb1
            subst hb1
            exact ⟨hk.symm, hU b (List.mem_cons_self b A')⟩
      · subst he
        refine ⟨List.pairwise_singleton R a, ?_⟩
        intro b hb
        dsimp only at hb ⊢
        rw [List.mem_singleton] at hb
        subst hb
        exact ⟨rfl, hU b (List.mem_cons_self b A')⟩

theorem overlapScan_eq_nil (p : ProblemInstance) (j : Nat) (l : List Assignment)
    (h : l.Pairwise (fun a b => a.start_time + taskDur p a.task_id ≤ b.start_time)) :
    overlapScan p j l = [] := by
  induction l with
  | nil => rfl
  | cons curr rest ih =>
    cases rest with
    | nil => rfl
    | cons next rrest =>
      have htail : overlapScan p j (next :: rrest) = [] :=
        ih (List.pairwise_cons.mp h).2
      have hcn : curr.start_time + taskDur p curr.task_id ≤ next.start_time :=
        (List.pairwise_cons.mp h).1 next (List.mem_cons_self next rrest)
      rw [overlapScan, htail]
      rcases Option.eq_none_or_eq_some (dictLookup p.tasks curr.task_id) with hl | ⟨t, hl⟩
      · rw [hl]
      · rw [hl]
        rw [taskDur, hl] at hcn
        dsimp only at hcn ⊢
        rw [if_neg (not_lt.mpr hcn)]

theorem overlapErrors_eq_nil (p : ProblemInstance) (ts : List (Nat × List Assignment))
    (h : ∀ jl ∈ ts, overlapScan p jl.1
      (jl.2.insertionSort (fun x y => x.start_time ≤ y.start_time)) = []) :
    overlapErrors p ts = [] := by
  unfold overlapErrors
  exact foldl_id_of_step _ ts
    (fun errs jl hjl => by dsimp only; rw [h jl hjl, List.append_nil]) []

theorem precedenceErrors_eq_nil (p : ProblemInstance) (A : List Assignment)
    (hprec : ∀ a ∈ A, ∀ t, dictLookup p.tasks a.task_id = some t →
      ∀ q ∈ t.predecessors, ∀ pa,
      dictLookup (A.map (fun b => (b.task_id, b))) q = some pa →
      ∀ tq, dictLookup p.tasks q = some tq →
      pa.start_time + tq.duration ≤ a.start_time) :
    precedenceErrors p (A.map (fun b => (b.task_id, b))) = [] := by
  unfold precedenceErrors
  apply foldl_id_of_step
  intro errs ta hta
  rw [List.mem_map] at hta
  obtain ⟨b, hb, he⟩ := hta
  subst he
  dsimp only
  rcases Option.eq_none_or_eq_some (dictLookup p.tasks b.task_id) with hl | ⟨t, hl⟩
  · rw [hl]
  · rw [hl]
    dsimp only
    apply foldl_id_of_step
    intro errs' q hq
    dsimp only
    rcases Option.eq_none_or_eq_some (dictLookup (A.map fun b => (b.task_id, b)) q)
      with hpa | ⟨pa, hpa⟩
    · rw [hpa]
    · rw [hpa]
      dsimp only
      rcases Option.eq_none_or_eq_some (dictLookup p.tasks q) with htq | ⟨tq, htq⟩
      · rw [htq]
      · rw [htq]
        dsimp only
        rw [if_neg (not_lt.mpr (hprec b hb t hl q hq pa hpa tq htq))]

theorem validate_schedule_of_good (p : ProblemInstance) (A : List Assignment)
    (hnodup : (A.map (fun a => a.task_id)).Nodup)
    (hgood : ∀ a ∈ A, ∃ t team, dictLookup p.tasks a.task_id = some t ∧
      dictLookup p.teams a.team_id = some team ∧
      dictContains t.compatible_teams a.team_id = true ∧
      team.available_from ≤ a.start_time)
    (hprec : ∀ a ∈ A, ∀ t, dictLookup p.tasks a.task_id = some t →
      ∀ q ∈ t.predecessors, ∀ pa,
      dictLookup (A.map (fun b => (b.task_id, b))) q = some pa →
      ∀ tq, dictLookup p.tasks q = some tq →
      pa.start_time + tq.duration ≤ a.start_time)
    (hpair : A.Pairwise (fun a b => a.team_id = b.team_id →
      a.start_time + taskDur p a.task_id ≤ b.start_time))
    (hdurnn : ∀ a ∈ A, 0 ≤ taskDur p a.task_id) :
    validate_schedule p ⟨A⟩ = { is_valid := true, errors := [] } := by
  have hts : ∀ jl ∈ A.foldl (fun d a => appendTeamSchedule d a.team_id a) [],
      jl.2.Pairwise (fun a b => a.start_time + taskDur p a.task_id ≤ b.start_time) ∧
      ∀ b ∈ jl.2, b.team_id = jl.1 ∧ b ∈ A :=
    teamSchedules_fold A _ A [] (fun a ha => ha) hpair
      (fun jl hjl => absurd hjl (List.not_mem_nil jl))
      (fun jl hjl => absurd hjl (List.not_mem_nil jl))
  have hover : overlapErrors p
      (A.foldl (fun d a => appendTeamSchedule d a.team_id a) []) = [] := by
    apply overlapErrors_eq_nil
    intro jl hjl
    obtain ⟨hpw, hmem⟩ := hts jl hjl
    have hsorted : jl.2.Sorted (fun x y => x.start_time ≤ y.start_time) := by
      refine hpw.imp_of_mem ?_
      intro a b ha hb hab
      have := hdurnn a (hmem a ha).2
      omega
    rw [List.Sorted.insertionSort_eq hsorted]
    exact overlapScan_eq_nil p jl.1 jl.2 hpw
  have hprecnil : precedenceErrors p (A.map (fun b => (b.task_id, b))) = [] :=
    precedenceErrors_eq_nil p A hprec
  unfold validate_schedule
  rw [checkFold_good p A
    { errors := [], scheduled_tasks := [], team_schedules := [] }
    hgood hnodup (fun a ha => rfl)]
  dsimp only
  simp only [List.nil_append]
  rw [hprecnil, hover, List.append_nil]
  rfl

/-! ### The decode loop establishes and preserves the invariant -/

theorem decodeLoop_inv (p : ProblemInstance) (pre : PreArrays)
    (team_assignment priority : List Nat)
    (hspec : PreSpec p pre) (hcons : consistentLists p = true)
    (hsol : compatAssignment p team_assignment) (hdur : nonnegDurations p = true) :
    ∀ (fuel : Nat) (st : DecodeState), DecodeInv p pre team_assignment st →
    DecodeInv p pre team_assignment (decodeLoop pre team_assignment priority fuel st) := by
  intro fuel
  induction fuel with
  | zero => intro st hinv; exact hinv
  | succ fuel ih =>
    intro st hinv
    rw [decodeLoop]
    rcases Option.eq_none_or_eq_some (popMin st.ready) with hpop |
      ⟨⟨⟨prio_v, task_id⟩, rest⟩, hpop⟩
    · rw [hpop]
      exact hinv
    · rw [hpop]
      exact ih _ (decodeStep_inv p pre team_assignment priority hspec hcons hsol hdur
        st hinv prio_v task_id rest hpop)

theorem filterMap_compat_eq_map_filter (l : List (Nat × Task)) :
    l.filterMap (fun kv => if kv.2.compatible_teams.isEmpty then none else some kv.1) =
    (l.filter (fun kv => !kv.2.compatible_teams.isEmpty)).map Prod.fst := by
  induction l with
  | nil => rfl
  | cons kv tl ih =>
    rw [List.filterMap_cons, List.filter_cons]
    cases h : kv.2.compatible_teams.isEmpty with
    | true => exact ih
    | false => exact congrArg (fun l => kv.1 :: l) ih

theorem map_snd_seed (pre : PreArrays) (priority : List Nat) (l : List Nat) :
    (l.filterMap (fun tid => if pre.initial_in_degrees.getD tid 0 = 0
        then some (priority.getD tid 0, tid) else none)).map Prod.snd =
    l.filter (fun tid => decide (pre.initial_in_degrees.getD tid 0 = 0)) := by
  induction l with
  | nil => rfl
  | cons a tl ih =>
    rw [List.filterMap_cons, List.filter_cons]
    by_cases h : pre.initial_in_degrees.getD a 0 = 0
    · rw [if_pos h, if_pos (decide_eq_true h)]
      exact congrArg (fun l => a :: l) ih
    · rw [if_neg h, if_neg (fun hc => h (of_decide_eq_true hc))]
      exact ih

theorem mem_seed_iff (pre : PreArrays) (priority : List Nat) (l : List Nat) (pr s : Nat) :
    (pr, s) ∈ l.filterMap (fun tid => if pre.initial_in_degrees.getD tid 0 = 0
        then some (priority.getD tid 0, tid) else none) ↔
    (s ∈ l ∧ pre.initial_in_degrees.getD s 0 = 0 ∧ pr = priority.getD s 0) := by
  rw [List.mem_filterMap]
  constructor
  · rintro ⟨tid, htid, he⟩
    by_cases h : pre.initial_in_degrees.getD tid 0 = 0
    · rw [if_pos h] at he
      injection he with he
      cases he
      exact ⟨htid, h, rfl⟩
    · rw [if_neg h] at he
      cases he
  · rintro ⟨hs, h0, hpr⟩
    exact ⟨s, hs, by rw [if_pos h0, hpr]⟩

theorem tasks_with_teams_nodup (p : ProblemInstance) (pre : PreArrays)
    (hspec : PreSpec p pre) (hwf : dictWF p.tasks) : pre.tasks_with_teams.Nodup := by
  rw [hspec.twt_eq, filterMap_compat_eq_map_filter]
  exact List.Sublist.nodup (List.Sublist.map Prod.fst (List.filter_sublist _)) hwf

theorem mem_tasks_with_teams (p : ProblemInstance) (pre : PreArrays)
    (hspec : PreSpec p pre) (hwf : dictWF p.tasks) (tid : Nat) :
    tid ∈ pre.tasks_with_teams ↔
      ∃ t, dictLookup p.tasks tid = some t ∧ t.compatible_teams ≠ [] := by
  rw [hspec.twt_eq, filterMap_compat_eq_map_filter]
  constructor
  · intro h
    rw [List.mem_map] at h
    obtain ⟨kv, hkv, he⟩ := h
    rw [List.mem_filter] at hkv
    refine ⟨kv.2, ?_, ?_⟩
    · rw [← he]
      exact dictLookup_eq_some_of_mem hwf (by rw [Prod.mk.eta]; exact hkv.1)
    · intro hnil
      have := hkv.2
      rw [hnil] at this
      simp at this
  · rintro ⟨t, ht, hne⟩
    rw [List.mem_map]
    refine ⟨(tid, t), ?_, rfl⟩
    rw [List.mem_filter]
    refine ⟨dictLookup_mem ht, ?_⟩
    cases hc : t.compatible_teams with
    | nil => exact absurd hc hne
    | cons a l => rfl

theorem decodeInit_inv (p : ProblemInstance) (pre : PreArrays)
    (team_assignment priority : List Nat)
    (hspec : PreSpec p pre) (hwf : dictWF p.tasks) :
    DecodeInv p pre team_assignment
      { team_available := pre.team_initial_availability
        task_finish_times := List.replicate pre.num_tasks (-1)
        current_in_degrees := pre.initial_in_degrees
        ready := pre.tasks_with_teams.filterMap
          (fun tid => if pre.initial_in_degrees.getD tid 0 = 0
            then some (priority.getD tid 0, tid) else none)
        assignments := [] } := by
  constructor
  case nodup_sched => exact List.nodup_nil
  case task_ok =>
    intro a ha
    exact absurd ha (List.not_mem_nil a)
  case avail_ok =>
    intro a ha
    exact absurd ha (List.not_mem_nil a)
  case fin_sched =>
    intro a ha
    exact absurd ha (List.not_mem_nil a)
  case prec_ok =>
    intro a ha
    exact absurd ha (List.not_mem_nil a)
  case team_avail_lb =>
    intro j team hteam
    exact le_of_eq (hspec.avail_eq j team hteam).symm
  case team_fin_ub =>
    intro a ha
    exact absurd ha (List.not_mem_nil a)
  case team_pairwise => exact List.Pairwise.nil
  case ready_nodup =>
    show ((pre.tasks_with_teams.filterMap
      (fun tid => if pre.initial_in_degrees.getD tid 0 = 0
        then some (priority.getD tid 0, tid) else none)).map Prod.snd).Nodup
    rw [map_snd_seed]
    exact (tasks_with_teams_nodup p pre hspec hwf).filter _
  case ready_fresh =>
    intro pr s hs
    exact List.not_mem_nil s
  case ready_ok =>
    intro pr s hs
    obtain ⟨hsl, h0, -⟩ := (mem_seed_iff pre priority _ pr s).mp hs
    obtain ⟨t, ht, hne⟩ := (mem_tasks_with_teams p pre hspec hwf s).mp hsl
    refine ⟨t, ht, hne, ?_⟩
    intro q hq
    have hdeg := hspec.indeg_eq s t ht
    rw [h0] at hdeg
    have hlen : t.predecessors.length = 0 := by exact_mod_cast hdeg.symm
    rw [List.length_eq_zero] at hlen
    rw [hlen] at hq
    cases hq
  case indeg_book =>
    intro s hsl
    show pre.initial_in_degrees.getD s 0 =
      pre.initial_in_degrees.getD s 0 -
        (([] : List Assignment).map
          (fun a => ((pre.successors.getD a.task_id []).count s : Int))).sum
    simp
  case indeg_len => exact hspec.indeg_len
  case fin_len =>
    show (List.replicate pre.num_tasks (-1 : Int)).length = p.num_tasks
    rw [List.length_replicate]
    exact hspec.num_tasks_eq
  case avail_len => exact hspec.avail_len
  case pool_zero =>
    intro pr s hs
    exact ((mem_seed_iff pre priority _ pr s).mp hs).2.1
  case sched_zero =>
    intro a ha
    exact absurd ha (List.not_mem_nil a)
  case zero_in_pool =>
    intro s t ht hne h0
    right
    show s ∈ (pre.tasks_with_teams.filterMap
      (fun tid => if pre.initial_in_degrees.getD tid 0 = 0
        then some (priority.getD tid 0, tid) else none)).map Prod.snd
    rw [map_snd_seed]
    exact List.mem_filter.mpr
      ⟨(mem_tasks_with_teams p pre hspec hwf s).mpr ⟨t, ht, hne⟩, decide_eq_true h0⟩

/-- **C5**: for every `ProblemInstance` with unique task and team keys that
`_preprocess` accepts (hence with continuous indices), whose predecessor and
successor lists are mutually consistent and whose durations are
non-negative, and every solution whose `team_assignment` maps each task
having a non-empty `compatible_teams` map to one of its compatible teams,
the schedule formed from `TabuSearchMiddleware._decode(solution)` passes
`validate_schedule` with no errors: no duplicate tasks, no start before the
team's `available_from`, no start before a scheduled predecessor's finish,
and no overlap of two assignments on the same team. -/
theorem tabu_decode_validates (p : ProblemInstance) (sol : Solution) (pre : PreArrays)
    (hwfT : dictWF p.tasks) (hwfM : dictWF p.teams)
    (hpre : TabuSearch.preprocess p = .ok pre)
    (hcons : consistentLists p = true)
    (hdur : nonnegDurations p = true)
    (hsol : compatAssignment p sol.team_assignment) :
    validate_schedule p ⟨TabuSearch.decode pre sol⟩ =
      { is_valid := true, errors := [] } := by
  have hspec := preprocess_spec p pre hwfT hwfM hpre
  set priority := sol.task_order.enum.foldl (fun arr q => arr.set q.2 q.1)
    (List.replicate pre.num_tasks 0) with hpriodef
  set st₀ : DecodeState :=
    { team_available := pre.team_initial_availability
      task_finish_times := List.replicate pre.num_tasks (-1)
      current_in_degrees := pre.initial_in_degrees
      ready := pre.tasks_with_teams.filterMap
        (fun tid => if pre.initial_in_degrees.getD tid 0 = 0
          then some (priority.getD tid 0, tid) else none)
      assignments := [] } with hst₀def
  set stF := decodeLoop pre sol.team_assignment priority
    (pre.tasks_with_teams.length + pre.num_tasks + 1) st₀ with hstFdef
  have hinvF : DecodeInv p pre sol.team_assignment stF :=
    decodeLoop_inv p pre sol.team_assignment priority hspec hcons hsol hdur _ _
      (decodeInit_inv p pre sol.team_assignment priority hspec hwfT)
  have hA : TabuSearch.decode pre sol = stF.assignments := rfl
  rw [hA]
  have hdurOf : ∀ a ∈ stF.assignments, ∀ t, dictLookup p.tasks a.task_id = some t →
      taskDur p a.task_id = durOf pre a.task_id := by
    intro a ha t ht
    rw [taskDur, ht, durOf, hspec.dur_eq a.task_id t ht]
  apply validate_schedule_of_good
  · exact hinvF.nodup_sched
  · intro a ha
    obtain ⟨t, ht, -, hmem⟩ := hinvF.task_ok a ha
    obtain ⟨team, hteam, hav⟩ := hinvF.avail_ok a ha
    exact ⟨t, team, ht, hteam,
      (dictLookup_isSome_iff t.compatible_teams a.team_id).mpr hmem, hav⟩
  · intro a ha t ht q hq pa hpa tq htq
    obtain ⟨-, hfin⟩ := hinvF.prec_ok a ha q
      (by rw [hspec.preds_eq a.task_id t ht]; exact hq)
    have hpam := dictLookup_mem hpa
    rw [List.mem_map] at hpam
    obtain ⟨b, hb, he⟩ := hpam
    have hbq : b.task_id = q := congrArg Prod.fst he
    have hbpa : b = pa := congrArg Prod.snd he
    subst hbpa
    have hfs := hinvF.fin_sched b hb
    rw [hbq] at hfs
    have hdq : durOf pre q = tq.duration := by
      rw [durOf, hspec.dur_eq q tq htq]
    rw [hfs, hdq] at hfin
    exact hfin
  · refine hinvF.team_pairwise.imp_of_mem ?_
    intro a b ha hb hab hteam
    obtain ⟨t, ht, -, -⟩ := hinvF.task_ok a ha
    rw [hdurOf a ha t ht]
    exact hab hteam
  · intro a ha
    obtain ⟨t, ht, -, -⟩ := hinvF.task_ok a ha
    rw [taskDur, ht]
    rw [nonnegDurations, List.all_eq_true] at hdur
    simpa using hdur (a.task_id, t) (dictLookup_mem ht)

/-- Witness for the decode-validates theorem: the two-task one-team
instance with both tasks assigned to team 0. -/
theorem tabu_decode_validates_witness :
    validate_schedule exTabuInstance ⟨TabuSearch.decode exTabuPre exTabuSolution⟩ =
      { is_valid := true, errors := [] } :=
  tabu_decode_validates exTabuInstance exTabuSolution exTabuPre
    (by decide) (by decide) (by rfl) (by decide) (by decide)
    (by
      intro tid t ht hne
      match tid with
      | 0 =>
        injection ht with h
        rw [← h]
        decide
      | 1 =>
        injection ht with h
        rw [← h]
        decide
      | n + 2 =>
        rw [show dictLookup exTabuInstance.tasks (n + 2) = none from rfl] at ht
        cases ht)

/-! ### Which tasks `_decode` schedules -/

theorem canonicalAssignment_compat (p : ProblemInstance) (pre : PreArrays)
    (hspec : PreSpec p pre) : compatAssignment p (canonicalAssignment p) := by
  intro tid t ht hne
  have hlt : tid < p.num_tasks :=
    (hspec.keys_range tid).mp (Option.isSome_iff_exists.mpr ⟨t, ht⟩)
  have hget : (canonicalAssignment p).getD tid 0 =
      (t.compatible_teams.map Prod.fst).headD 0 := by
    rw [canonicalAssignment, List.getD_eq_getElem?_getD, List.getElem?_map,
      List.getElem?_range hlt, Option.map_some', Option.getD_some, ht]
  rw [hget]
  cases hm : t.compatible_teams.map Prod.fst with
  | nil =>
    rw [List.map_eq_nil_iff] at hm
    exact absurd hm hne
  | cons a l => exact List.mem_cons_self a l

theorem schedIds_decodeStep (pre : PreArrays) (ta priority : List Nat)
    (st : DecodeState) (tid : Nat) (rest : List (Nat × Nat)) :
    schedIds (decodeStep pre ta priority st tid rest) = schedIds st ++ [tid] := by
  rw [schedIds, schedIds]
  rw [show (decodeStep pre ta priority st tid rest).assignments =
    st.assignments ++ [⟨tid, ta.getD tid 0,
      max (st.team_available.getD (ta.getD tid 0) 0)
        ((pre.predecessors.getD tid []).foldl
          (fun acc q => max acc (st.task_finish_times.getD q (-1))) 0)⟩] from rfl]
  rw [List.map_append]
  rfl

theorem decodeStep_ids_eq (pre : PreArrays) (ta1 ta2 priority : List Nat)
    (st1 st2 : DecodeState)
    (hdeg : st1.current_in_degrees = st2.current_in_degrees)
    (hids : schedIds st1 = schedIds st2)
    (tid : Nat) (rest : List (Nat × Nat)) :
    (decodeStep pre ta1 priority st1 tid rest).current_in_degrees =
      (decodeStep pre ta2 priority st2 tid rest).current_in_degrees ∧
    (decodeStep pre ta1 priority st1 tid rest).ready =
      (decodeStep pre ta2 priority st2 tid rest).ready ∧
    schedIds (decodeStep pre ta1 priority st1 tid rest) =
      schedIds (decodeStep pre ta2 priority st2 tid rest) := by
  refine ⟨?_, ?_, ?_⟩
  · show (decrementSuccs pre priority (pre.successors.getD tid [])
        (st1.current_in_degrees, rest)).1 =
      (decrementSuccs pre priority (pre.successors.getD tid [])
        (st2.current_in_degrees, rest)).1
    rw [hdeg]
  · show (decrementSuccs pre priority (pre.successors.getD tid [])
        (st1.current_in_degrees, rest)).2 =
      (decrementSuccs pre priority (pre.successors.getD tid [])
        (st2.current_in_degrees, rest)).2
    rw [hdeg]
  · rw [schedIds_decodeStep, schedIds_decodeStep, hids]

theorem decodeLoop_ids_eq (pre : PreArrays) (ta1 ta2 priority : List Nat) :
    ∀ (fuel : Nat) (st1 st2 : DecodeState),
    st1.current_in_degrees = st2.current_in_degrees →
    st1.ready = st2.ready →
    schedIds st1 = schedIds st2 →
    schedIds (decodeLoop pre ta1 priority fuel st1) =
      schedIds (decodeLoop pre ta2 priority fuel st2) ∧
    (decodeLoop pre ta1 priority fuel st1).ready =
      (decodeLoop pre ta2 priority fuel st2).ready := by
  intro fuel
  induction fuel with
  | zero =>
    intro st1 st2 h1 h2 h3
    exact ⟨h3, h2⟩
  | succ fuel ih =>
    intro st1 st2 h1 h2 h3
    rw [decodeLoop, decodeLoop, ← h2]
    rcases Option.eq_none_or_eq_some (popMin st1.ready) with hpop |
      ⟨⟨⟨pr, tid⟩, rest⟩, hpop⟩
    · rw [hpop]
      exact ⟨h3, h2⟩
    · rw [hpop]
      obtain ⟨g1, g2, g3⟩ := decodeStep_ids_eq pre ta1 ta2 priority st1 st2 h1 h3 tid rest
      exact ih _ _ g1 g2 g3

theorem sched_length_le (p : ProblemInstance) (pre : PreArrays)
    (team_assignment : List Nat) (hspec : PreSpec p pre)
    (st : DecodeState) (hinv : DecodeInv p pre team_assignment st) :
    (schedIds st).length ≤ p.num_tasks := by
  have hsub : ∀ x ∈ schedIds st, x < p.num_tasks := by
    intro x hx
    rw [schedIds, List.mem_map] at hx
    obtain ⟨a, ha, rfl⟩ := hx
    obtain ⟨t, ht, -, -⟩ := hinv.task_ok a ha
    exact (hspec.keys_range _).mp (Option.isSome_iff_exists.mpr ⟨t, ht⟩)
  calc (schedIds st).length = (schedIds st).toFinset.card :=
        (List.toFinset_card_of_nodup hinv.nodup_sched).symm
    _ ≤ (Finset.range p.num_tasks).card := Finset.card_le_card
        (fun x hx => Finset.mem_range.mpr (hsub x (List.mem_toFinset.mp hx)))
    _ = p.num_tasks := Finset.card_range _

theorem decodeLoop_ready_empty (p : ProblemInstance) (pre : PreArrays)
    (team_assignment priority : List Nat)
    (hspec : PreSpec p pre) (hcons : consistentLists p = true)
    (hsol : compatAssignment p team_assignment) (hdur : nonnegDurations p = true) :
    ∀ (fuel : Nat) (st : DecodeState), DecodeInv p pre team_assignment st →
    p.num_tasks + 1 ≤ fuel + (schedIds st).length →
    (decodeLoop pre team_assignment priority fuel st).ready = [] := by
  intro fuel
  induction fuel with
  | zero =>
    intro st hinv hfuel
    exfalso
    have hle := sched_length_le p pre team_assignment hspec st hinv
    omega
  | succ fuel ih =>
    intro st hinv hfuel
    rw [decodeLoop]
    rcases Option.eq_none_or_eq_some (popMin st.ready) with hpop |
      ⟨⟨⟨pr, tid⟩, rest⟩, hpop⟩
    · rw [hpop]
      exact (popMin_eq_none_iff st.ready).mp hpop
    · rw [hpop]
      apply ih _ (decodeStep_inv p pre team_assignment priority hspec hcons hsol hdur
        st hinv pr tid rest hpop)
      rw [schedIds_decodeStep, List.length_append]
      simp only [List.length_singleton]
      omega

theorem sched_closed_pred (p : ProblemInstance) (pre : PreArrays)
    (team_assignment : List Nat) (hspec : PreSpec p pre)
    (st : DecodeState) (hinv : DecodeInv p pre team_assignment st)
    {b s : Nat} (h : predOf p b s) (hs : s ∈ schedIds st) : b ∈ schedIds st := by
  obtain ⟨ts, hts, hbm⟩ := h
  rw [schedIds, List.mem_map] at hs
  obtain ⟨a, ha, hid⟩ := hs
  have hts' : dictLookup p.tasks a.task_id = some ts := by
    rw [hid]
    exact hts
  exact (hinv.prec_ok a ha b
    (by rw [hspec.preds_eq a.task_id ts hts']; exact hbm)).1

theorem sched_closed_anc (p : ProblemInstance) (pre : PreArrays)
    (team_assignment : List Nat) (hspec : PreSpec p pre)
    (st : DecodeState) (hinv : DecodeInv p pre team_assignment st)
    {b s : Nat} (htg : Relation.TransGen (predOf p) b s) :
    s ∈ schedIds st → b ∈ schedIds st := by
  induction htg with
  | single h => exact sched_closed_pred p pre team_assignment hspec st hinv h
  | tail htg h ih =>
    intro hs
    exact ih (sched_closed_pred p pre team_assignment hspec st hinv h hs)

theorem sched_compat (p : ProblemInstance) (pre : PreArrays)
    (team_assignment : List Nat)
    (st : DecodeState) (hinv : DecodeInv p pre team_assignment st)
    {s : Nat} (hs : s ∈ schedIds st) :
    ∃ t, dictLookup p.tasks s = some t ∧ t.compatible_teams ≠ [] := by
  rw [schedIds, List.mem_map] at hs
  obtain ⟨a, ha, hid⟩ := hs
  obtain ⟨t, ht, -, hmem⟩ := hinv.task_ok a ha
  refine ⟨t, by rw [← hid]; exact ht, ?_⟩
  intro hnil
  rw [hnil, List.map_nil] at hmem
  exact absurd hmem (List.not_mem_nil _)

theorem ancestors_finite (p : ProblemInstance) (pre : PreArrays)
    (hspec : PreSpec p pre) (hcons : consistentLists p = true) (s : Nat) :
    (ancestors p s).Finite := by
  apply Set.Finite.subset (Set.finite_Iio p.num_tasks)
  intro b hb
  simp only [Set.mem_Iio]
  have hb' : Relation.TransGen (predOf p) b s := hb
  clear hb
  induction hb' with
  | single h =>
    obtain ⟨tc, htc, hbm⟩ := h
    exact (hspec.keys_range b).mp (consistent_pred_isSome hcons htc hbm)
  | tail htg h ih => exact ih

theorem ancestors_ssubset (p : ProblemInstance)
    (hacyc : ∀ x, ¬ Relation.TransGen (predOf p) x x)
    {q s : Nat} (h : predOf p q s) : ancestors p q ⊂ ancestors p s := by
  rw [Set.ssubset_def]
  constructor
  · intro b hb
    exact Relation.TransGen.tail hb h
  · intro hsub
    exact hacyc q (hsub (Relation.TransGen.single h))

theorem inv_slot_interp (p : ProblemInstance) (pre : PreArrays)
    (team_assignment : List Nat)
    (hspec : PreSpec p pre) (hcons : consistentLists p = true)
    (st : DecodeState) (hinv : DecodeInv p pre team_assignment st)
    {s : Nat} {ts : Task} (hs : dictLookup p.tasks s = some ts) :
    st.current_in_degrees.getD s 0 =
      ((ts.predecessors.length : Int)) -
      ((ts.predecessors.filter (fun b => (schedIds st).contains b)).length : Int) := by
  have hsched_lookup : ∀ a ∈ schedIds st, (dictLookup p.tasks a).isSome := by
    intro a ha
    rw [schedIds, List.mem_map] at ha
    obtain ⟨b, hb, rfl⟩ := ha
    obtain ⟨t, ht, -, -⟩ := hinv.task_ok b hb
    exact Option.isSome_iff_exists.mpr ⟨t, ht⟩
  have hlt : s < p.num_tasks :=
    (hspec.keys_range s).mp (Option.isSome_iff_exists.mpr ⟨ts, hs⟩)
  rw [hinv.indeg_book s hlt, hspec.indeg_eq s ts hs]
  congr 1
  have hms : st.assignments.map
      (fun a => ((pre.successors.getD a.task_id []).count s : Int)) =
      (schedIds st).map (fun a => ((pre.successors.getD a []).count s : Int)) := by
    rw [schedIds, List.map_map]
    rfl
  rw [hms, decSum_interp p pre hspec hcons _ hinv.nodup_sched hsched_lookup hs]

theorem decode_final_complete (p : ProblemInstance) (pre : PreArrays)
    (team_assignment : List Nat)
    (hspec : PreSpec p pre) (hcons : consistentLists p = true)
    (hacyc : ∀ x, ¬ Relation.TransGen (predOf p) x x)
    (st : DecodeState) (hinv : DecodeInv p pre team_assignment st)
    (hready : st.ready = []) :
    ∀ (n : Nat) (s : Nat) (ts : Task), (ancestors p s).ncard ≤ n →
      dictLookup p.tasks s = some ts → ts.compatible_teams ≠ [] →
      (∀ b ∈ ancestors p s,
        ∃ tb, dictLookup p.tasks b = some tb ∧ tb.compatible_teams ≠ []) →
      s ∈ schedIds st := by
  intro n
  induction n using Nat.strong_induction_on with
  | _ n ih =>
    intro s ts hcard hs hne hanc
    have hqsched : ∀ q ∈ ts.predecessors, q ∈ schedIds st := by
      intro q hq
      have hqanc : q ∈ ancestors p s := Relation.TransGen.single ⟨ts, hs, hq⟩
      obtain ⟨tq, htq, hqne⟩ := hanc q hqanc
      have hss : ancestors p q ⊂ ancestors p s := ancestors_ssubset p hacyc ⟨ts, hs, hq⟩
      have hfin : (ancestors p s).Finite := ancestors_finite p pre hspec hcons s
      have hlt : (ancestors p q).ncard < (ancestors p s).ncard :=
        Set.ncard_lt_ncard hss hfin
      exact ih (ancestors p q).ncard (lt_of_lt_of_le hlt hcard) q tq (le_refl _) htq hqne
        (fun b hb => hanc b (Relation.TransGen.tail hb ⟨ts, hs, hq⟩))
    have hslot := inv_slot_interp p pre team_assignment hspec hcons st hinv hs
    have hfull : (ts.predecessors.filter (fun b => (schedIds st).contains b)).length =
        ts.predecessors.length :=
      (filter_length_eq_iff _ _).mpr (fun b hb => List.elem_iff.mpr (hqsched b hb))
    have hzero : st.current_in_degrees.getD s 0 = 0 := by
      rw [hslot, hfull]
      ring
    rcases hinv.zero_in_pool s ts hs hne hzero with h | h
    · exact h
    · rw [hready, List.map_nil] at h
      exact absurd h (List.not_mem_nil s)

/-- **C10**: over an acyclic instance with unique keys accepted by
`_preprocess` (continuous indices), mutually consistent dependency lists
and the §3 non-negative durations, a task id appears in the assignment
list returned by `TabuSearchMiddleware._decode` exactly when the task has
at least one compatible team and every one of its transitive predecessors
does too; in particular a task that itself has compatible teams is
silently omitted whenever an ancestor's `compatible_teams` map is empty. -/
theorem tabu_decode_membership (p : ProblemInstance) (sol : Solution) (pre : PreArrays)
    (hwfT : dictWF p.tasks) (hwfM : dictWF p.teams)
    (hpre : TabuSearch.preprocess p = .ok pre)
    (hcons : consistentLists p = true)
    (hdur : nonnegDurations p = true)
    (hacyc : ∀ x, ¬ Relation.TransGen (predOf p) x x)
    (tid : Nat) :
    tid ∈ (TabuSearch.decode pre sol).map (fun a => a.task_id) ↔
    ((∃ t, dictLookup p.tasks tid = some t ∧ t.compatible_teams ≠ []) ∧
     ∀ b ∈ ancestors p tid,
       ∃ tb, dictLookup p.tasks b = some tb ∧ tb.compatible_teams ≠ []) := by
  have hspec := preprocess_spec p pre hwfT hwfM hpre
  have hca : compatAssignment p (canonicalAssignment p) :=
    canonicalAssignment_compat p pre hspec
  set priority := sol.task_order.enum.foldl (fun arr q => arr.set q.2 q.1)
    (List.replicate pre.num_tasks 0) with hpriodef
  set st₀ : DecodeState :=
    { team_available := pre.team_initial_availability
      task_finish_times := List.replicate pre.num_tasks (-1)
      current_in_degrees := pre.initial_in_degrees
      ready := pre.tasks_with_teams.filterMap
        (fun t => if pre.initial_in_degrees.getD t 0 = 0
          then some (priority.getD t 0, t) else none)
      assignments := [] } with hst₀def
  set fuel := pre.tasks_with_teams.length + pre.num_tasks + 1 with hfueldef
  set stF := decodeLoop pre sol.team_assignment priority fuel st₀ with hstFdef
  set stC := decodeLoop pre (canonicalAssignment p) priority fuel st₀ with hstCdef
  have hinv₀ : DecodeInv p pre (canonicalAssignment p) st₀ :=
    decodeInit_inv p pre (canonicalAssignment p) priority hspec hwfT
  have hinvC : DecodeInv p pre (canonicalAssignment p) stC :=
    decodeLoop_inv p pre (canonicalAssignment p) priority hspec hcons hca hdur _ _ hinv₀
  obtain ⟨hids, -⟩ := decodeLoop_ids_eq pre sol.team_assignment (canonicalAssignment p)
    priority fuel st₀ st₀ rfl rfl rfl
  have hreadyC : stC.ready = [] := by
    apply decodeLoop_ready_empty p pre (canonicalAssignment p) priority hspec hcons hca hdur
      fuel st₀ hinv₀
    have hzero : (schedIds st₀).length = 0 := rfl
    have hnn := hspec.num_tasks_eq
    omega
  have hdecode : (TabuSearch.decode pre sol).map (fun a => a.task_id) = schedIds stF := rfl
  rw [hdecode, hids]
  constructor
  · intro hmem
    refine ⟨sched_compat p pre (canonicalAssignment p) stC hinvC hmem, ?_⟩
    intro b hb
    exact sched_compat p pre (canonicalAssignment p) stC hinvC
      (sched_closed_anc p pre (canonicalAssignment p) hspec stC hinvC hb hmem)
  · rintro ⟨⟨t, ht, hne⟩, hanc⟩
    exact decode_final_complete p pre (canonicalAssignment p) hspec hcons hacyc stC hinvC
      hreadyC (ancestors p tid).ncard tid t (le_refl _) ht hne hanc

/-- Witness for the decode-membership theorem: on `exC10Instance`, where
task 0 has no compatible team and task 1 depends on it, the
characterization is applied at task 1. -/
theorem tabu_decode_membership_witness :
    1 ∈ (TabuSearch.decode exC10Pre exC10Solution).map (fun a => a.task_id) ↔
    ((∃ t, dictLookup exC10Instance.tasks 1 = some t ∧ t.compatible_teams ≠ []) ∧
     ∀ b ∈ ancestors exC10Instance 1,
       ∃ tb, dictLookup exC10Instance.tasks b = some tb ∧
         tb.compatible_teams ≠ []) :=
  tabu_decode_membership exC10Instance exC10Solution exC10Pre
    (by decide) (by decide) (by rfl) (by decide) (by decide)
    (by
      have hstep : ∀ u v, predOf exC10Instance u v → u = 0 ∧ v = 1 := by
        rintro u v ⟨tv, hv, hu⟩
        match v with
        | 0 =>
          injection hv with h
          rw [← h] at hu
          exact absurd hu (List.not_mem_nil u)
        | 1 =>
          injection hv with h
          rw [← h] at hu
          exact ⟨List.mem_singleton.mp hu, rfl⟩
        | 2 =>
          injection hv with h
          rw [← h] at hu
          exact absurd hu (List.not_mem_nil u)
        | n + 3 =>
          rw [show dictLookup exC10Instance.tasks (n + 3) = none from rfl] at hv
          cases hv
      have hkey : ∀ u v, Relation.TransGen (predOf exC10Instance) u v →
          u = 0 ∧ v = 1 := by
        intro u v htg
        induction htg with
        | single h => exact hstep _ _ h
        | tail htg h ih =>
          obtain ⟨h1, h2⟩ := hstep _ _ h
          obtain ⟨h3, h4⟩ := ih
          omega
      intro x htg
      obtain ⟨h1, h2⟩ := hkey x x htg
      omega)
    1

end Paas
